import Mathlib

/-!
# SPLASH-2 raytrace driver (`main.c`): worker lifecycle, start barrier, timing statistics

A shallow embedding of `StartRayTrace` and of `main` (from the end of option parsing at
line 333 to `exit(0)`).  Threads are interleaved at the granularity of the lock-protected regions of the
source: every program point of `StartRayTrace` is one atomic step of one thread.

Conventions
* `INT` values (`nprocs`, `gm->pid`, `bar_teller`, loop counters) are `Int`; the counters stay
  between `0` and `nprocs`, so no wrap-around is modelled for them.
* `UINT` / `unsigned` values (timestamps, timing table, running sum) are `Nat` reduced
  modulo `2^32` where the source can wrap.
* `MAX_PROCS` (from `rt.h`) and `__MAX_THREADS__` are parameters of the configuration.
* `pthread_cond_wait` returns after a `pthread_cond_broadcast`, or without one (POSIX
  permits such a return); the source calls it once, not in a loop that tests the counter.
* `InitWorkPool`, `InitRayTreeStack` and `RayTrace` are external; they do not touch the
  fields of `gm` modelled here.
-/

namespace Raytrace

/-! ## Machine words -/

/-- The value `time(0)` stored into a `UINT` variable when the wall clock shows `clock`. -/
def time (clock : Nat) : Nat := clock % 4294967296

/-- `UINT` subtraction `a - b`. -/
def usub (a b : Nat) : Nat := (((a : Int) - (b : Int)) % 4294967296).toNat

/-- The expression `(end - begin) & 0x7FFFFFFF` of `StartRayTrace` and `main`. -/
def lapse (begin_t end_t : Nat) : Nat := usub end_t begin_t &&& 0x7FFFFFFF

/-! ## Shared memory -/

/-- The start barrier `gm->start` (mutex and condition variable are implicit in the
atomicity of the steps). -/
structure BARRIER where
  bar_teller : Int

/-- The fields of `GMEM` used by `main.c`. -/
structure GMEM where
  nprocs : Int
  pid : Int
  rid : Int
  start : BARRIER
  par_start_time : Nat
  partime : Int → Nat

/-- Configuration after command-line parsing (`argc` is its value at line 333), together
with the constants `MAX_PROCS` and `__MAX_THREADS__` of the headers, the result of
`GlobalHeapInit`, and the contents of the memory block that `our_malloc` returns for `gm`
(`partime` and `par_start_time` are not set by `main`). -/
structure Cfg where
  MAX_PROCS : Int
  MAX_THREADS : Int
  argc : Int
  nprocs : Int
  dostats : Bool
  heap_ok : Bool
  raw_partime : Int → Nat
  raw_par_start_time : Nat

/-! ## Statistics aggregation (lines 476-498 of `main`) -/

/-- Loop variables `totalproctime`, `maxproctime`, `minproctime`. -/
structure Agg where
  totalproctime : Nat
  maxproctime : Nat
  minproctime : Nat
deriving DecidableEq

/-- Body of the loop at lines 489-495 for one index `i`. -/
def agg_body (partime : Int → Nat) (acc : Agg) (i : Nat) : Agg :=
  { totalproctime := (acc.totalproctime + partime i) % 4294967296
    maxproctime := if partime i > acc.maxproctime then partime i else acc.maxproctime
    minproctime := if partime i < acc.minproctime then partime i else acc.minproctime }

/-- Lines 485-495: the three variables start at `partime[0]`, then `i` runs from `1`
while `i < nprocs`. -/
def aggregate (partime : Int → Nat) (nprocs : Int) : Agg :=
  (List.range' 1 (nprocs.toNat - 1)).foldl (agg_body partime)
    { totalproctime := partime 0, maxproctime := partime 0, minproctime := partime 0 }

/-- Search for the shift `k` that brings `a * 2^k / n` into the binary64 mantissa range
`[2^52, 2^53)`, starting at `k` and trying at most `fuel` further values. -/
def norm_shift (a n : Nat) : Nat → Nat → Nat
  | 0, k => k
  | fuel + 1, k => if 4503599627370496 ≤ a * 2 ^ k / n then k else norm_shift a n fuel (k + 1)

/-- Binary64 division `(double) a / (double) n` of two positive integers below `2^53` with
`a < 2^53 * n`, rounded to nearest, ties to even.  The result is the pair `(m, k)` denoting
the double `m / 2^k`. -/
def fdiv (a n : Nat) : Nat × Nat :=
  if a = 0 then (0, 0)
  else
    let k := norm_shift a n 1100 0
    let q := a * 2 ^ k / n
    let r := a * 2 ^ k % n
    let m := if 2 * r < n then q else if n < 2 * r then q + 1 else if q % 2 = 0 then q else q + 1
    (m, k)

/-- The cast `(int) x` of a non-negative double `x = m / 2^k`: truncation toward zero;
`none` when the integer part does not fit a 32-bit `int` (undefined in C). -/
def to_int (x : Nat × Nat) : Option Int :=
  if x.1 / 2 ^ x.2 < 2147483648 then some ((x.1 / 2 ^ x.2 : Nat) : Int) else none

/-- The expression `(int) (((double) totalproctime) / ((double) (1.0 * gm->nprocs)))`. -/
def average (totalproctime : Nat) (nprocs : Int) : Option Int :=
  if 0 < nprocs then to_int (fdiv totalproctime nprocs.toNat) else none

/-- Values printed under `PER-PROCESS STATISTICS`. -/
structure Stats where
  maxproctime : Nat
  minproctime : Nat
  avg : Option Int
deriving DecidableEq

/-- Lines 485-498. -/
def statistics (partime : Int → Nat) (nprocs : Int) : Stats :=
  let a := aggregate partime nprocs
  { maxproctime := a.maxproctime, minproctime := a.minproctime,
    avg := average a.totalproctime nprocs }

/-- Values printed by `main` at lines 469-499. -/
structure Report where
  begin_t : Nat
  end_t : Nat
  lapsed : Nat
  without_init : Nat
  stats : Option Stats
deriving DecidableEq

/-- Lines 465-499 of `main`. -/
def report (dostats : Bool) (begin_t end_t : Nat) (gm : GMEM) : Report :=
  { begin_t := begin_t, end_t := end_t, lapsed := lapse begin_t end_t,
    without_init := usub end_t gm.par_start_time,
    stats := if dostats then some (statistics gm.partime gm.nprocs) else none }

/-- The timing table whose slots `0 .. t.length - 1` hold the entries of `t`. -/
def table (t : List Nat) : Int → Nat := fun i => t.getD i.toNat 0

/-! ## Prologue of `main` (lines 333-399) -/

/-- Fatal messages of the prologue. -/
inductive Msg
  | valid_range (max : Int)
  | heap_init
deriving DecidableEq

/-- Process state while `main` is still single-threaded: `gm` is `none` until line 370,
`nthreads` is `__threads__`, `usage` records a call of `Usage()`. -/
structure Boot where
  gm : Option GMEM
  nthreads : Int
  usage : Bool
  stderr : List Msg
  exit : Option Nat

/-- Lines 377-385: the shared environment after its initialisation. -/
def gm_init (c : Cfg) : GMEM :=
  { nprocs := c.nprocs, pid := 0, rid := 1, start := { bar_teller := 0 },
    par_start_time := c.raw_par_start_time, partime := c.raw_partime }

/-- Lines 333-399 of `main`. -/
def main_prologue (c : Cfg) : Boot :=
  if c.argc = 0 then
    { gm := none, nthreads := 0, usage := true, stderr := [], exit := some 1 }
  else if c.nprocs < 1 ∨ c.nprocs > c.MAX_PROCS then
    { gm := none, nthreads := 0, usage := false, stderr := [Msg.valid_range c.MAX_PROCS],
      exit := some 1 }
  else if c.heap_ok then
    { gm := some (gm_init c), nthreads := 1, usage := false, stderr := [], exit := none }
  else
    { gm := some (gm_init c), nthreads := 1, usage := false, stderr := [Msg.heap_init],
      exit := some 1 }

/-! ## The threads -/

/-- Program points.  `timing`, `create`, `join`, `finish`, `exited` belong to `main`
(lines 442, 443-449, 453, 454-499, 501); `acquire` .. `clock_off` are lines 190-192,
194-195, 200-201, 219-226, 226 (blocked), 233, 236-240 of `StartRayTrace`; `returned` is a
worker that left `StartRayTrace`; `failed` is a slot of `__tid__` whose `pthread_create`
did not start a thread. -/
inductive PC
  | timing | create | acquire | clock_on | setup | arrive | waiting | trace | clock_off
  | returned | join | finish | exited | failed
deriving DecidableEq

/-- Local variables of one activation of `StartRayTrace`. -/
structure Thread where
  pc : PC
  pid : Int
  begin_t : Nat
  end_t : Nat
deriving DecidableEq

/-- Whole-program state.  `threads` is the table `__tid__` with the state of each thread,
slot `0` being the main thread; `nthreads` is `__threads__`; `i`, `aantal`, `begin_t`,
`end_t` are the locals of `main`; `clock` is the wall clock in seconds; `aborted` records a
failed assertion; `out` is what `main` printed at lines 469-499; `exit` is the exit code.
`released_at` is a history variable (never read by the program) holding the clock reading
at the barrier's broadcast. -/
structure State where
  gm : GMEM
  threads : List Thread
  nthreads : Int
  i : Int
  aantal : Int
  begin_t : Nat
  end_t : Nat
  clock : Nat
  released_at : Option Nat
  aborted : Bool
  out : Option Report
  exit : Option Nat

/-- Scheduler choices: thread slot `k` takes its next step (for `main` in the spawn loop:
`pthread_create` succeeds; for a thread inside `pthread_cond_wait`: the call returns
although nobody has broadcast), the next `pthread_create` fails, or the clock advances. -/
inductive Action
  | run (k : Nat)
  | create_fails
  | tick
deriving DecidableEq

/-- State in which `main` reaches line 442. -/
def init_state (c : Cfg) : State :=
  { gm := gm_init c, threads := [{ pc := PC.timing, pid := 0, begin_t := 0, end_t := 0 }],
    nthreads := 1, i := 0, aantal := 0, begin_t := 0, end_t := 0, clock := 0,
    released_at := none, aborted := false, out := none, exit := none }

/-- Lines 221-226: the new counter and whether the caller broadcasts (`true`) or waits. -/
def barrier (bar_teller target : Int) : Int × Bool :=
  if bar_teller + 1 = target then (0, true) else (bar_teller + 1, false)

/-- Effect of `pthread_cond_broadcast` on one thread. -/
def wake (t : Thread) : Thread :=
  if t.pc = PC.waiting then { t with pc := PC.trace } else t

/-- Lines 236-240 of `StartRayTrace`, with `end_t` the value read from the clock. -/
def record (dostats : Bool) (pid : Int) (begin_t end_t : Nat) (gm : GMEM) : GMEM :=
  if pid = 0 ∨ dostats = true then
    if pid = 0 then
      { gm with partime := Function.update gm.partime pid (lapse begin_t end_t),
                par_start_time := begin_t }
    else
      { gm with partime := Function.update gm.partime pid (lapse begin_t end_t) }
  else gm

/-- Slot added to the thread table by `pthread_create`; `ok` tells whether a thread was
started.  A started thread begins at the first line of `StartRayTrace`. -/
def new_thread (ok : Bool) : Thread :=
  { pc := if ok then PC.acquire else PC.failed, pid := 0, begin_t := 0, end_t := 0 }

/-- One iteration of the loop at lines 443-449: the assertion on `__threads__`, then
`pthread_create`, whose return value `main` does not inspect. -/
def spawn (c : Cfg) (s : State) (ok : Bool) : State :=
  if s.nthreads < c.MAX_THREADS then
    { s with threads := s.threads ++ [new_thread ok], nthreads := s.nthreads + 1, i := s.i + 1 }
  else { s with aborted := true }

/-- Next step of thread slot `k`, whose local state is `t`.  A thread at `waiting` is
inside `pthread_cond_wait` (line 226): the broadcast of another thread's arrival moves it
on, and so does its own step, a return without broadcast; in both cases it continues at
line 233, since the source does not test `bar_teller` again. -/
def run_thread (c : Cfg) (s : State) (k : Nat) (t : Thread) : Option State :=
  match t.pc with
  | PC.timing =>
      some { s with begin_t := time s.clock, i := 0,
                    threads := s.threads.set k { t with pc := PC.create } }
  | PC.create =>
      if s.i < s.gm.nprocs - 1 then some (spawn c s true)
      else some { s with threads := s.threads.set k { t with pc := PC.acquire } }
  | PC.acquire =>
      some { s with gm := { s.gm with pid := s.gm.pid + 1 },
                    threads := s.threads.set k { t with pid := s.gm.pid, pc := PC.clock_on } }
  | PC.clock_on =>
      if t.pid = 0 ∨ c.dostats = true then
        some { s with threads :=
          s.threads.set k { t with begin_t := time s.clock, pc := PC.setup } }
      else some { s with threads := s.threads.set k { t with pc := PC.setup } }
  | PC.setup => some { s with threads := s.threads.set k { t with pc := PC.arrive } }
  | PC.arrive =>
      if (barrier s.gm.start.bar_teller s.gm.nprocs).2 then
        some { s with
          gm := { s.gm with start := { bar_teller := (barrier s.gm.start.bar_teller s.gm.nprocs).1 } },
          threads := (s.threads.map wake).set k { t with pc := PC.trace },
          released_at := some (time s.clock) }
      else
        some { s with
          gm := { s.gm with start := { bar_teller := (barrier s.gm.start.bar_teller s.gm.nprocs).1 } },
          threads := s.threads.set k { t with pc := PC.waiting } }
  | PC.waiting => some { s with threads := s.threads.set k { t with pc := PC.trace } }
  | PC.trace => some { s with threads := s.threads.set k { t with pc := PC.clock_off } }
  | PC.clock_off =>
      if k = 0 then
        some { s with gm := record c.dostats t.pid t.begin_t (time s.clock) s.gm,
                      aantal := s.gm.nprocs - 1,
                      threads := s.threads.set k { t with end_t := time s.clock, pc := PC.join } }
      else
        some { s with gm := record c.dostats t.pid t.begin_t (time s.clock) s.gm,
                      threads := s.threads.set k { t with end_t := time s.clock, pc := PC.returned } }
  | PC.returned => none
  | PC.join =>
      if 0 < s.aantal then
        match s.threads[(s.nthreads - 1).toNat]? with
        | some u =>
            if u.pc = PC.returned then
              some { s with nthreads := s.nthreads - 1, aantal := s.aantal - 1 }
            else none
        | none => none
      else
        some { s with end_t := time s.clock,
                      threads := s.threads.set k { t with pc := PC.finish } }
  | PC.finish =>
      some { s with out := some (report c.dostats s.begin_t s.end_t s.gm), exit := some 0,
                    threads := s.threads.set k { t with pc := PC.exited } }
  | PC.exited => none
  | PC.failed => none

/-- One scheduler choice; `none` when the choice is not enabled. -/
def step (c : Cfg) (s : State) (a : Action) : Option State :=
  if s.aborted = true ∨ s.exit.isSome = true then none
  else
    match a with
    | Action.tick => some { s with clock := s.clock + 1 }
    | Action.create_fails =>
        match s.threads[0]? with
        | some t =>
            if t.pc = PC.create ∧ s.i < s.gm.nprocs - 1 then some (spawn c s false) else none
        | none => none
    | Action.run k =>
        match s.threads[k]? with
        | some t => run_thread c s k t
        | none => none

/-- Execution of a schedule. -/
def exec (c : Cfg) : State → List Action → Option State
  | s, [] => some s
  | s, a :: as =>
      match step c s a with
      | some s1 => exec c s1 as
      | none => none

/-! ## Predicates, invariants and sample inputs -/

/-- Counter of the start barrier after `k` arrivals that began with `bar_teller = 0`. -/
def arrivals (target : Int) : Nat → Int
  | 0 => 0
  | k + 1 => (barrier (arrivals target k) target).1

/-- Loop body of the aggregation on the value read from the table. -/
def agg_val (acc : Agg) (y : Nat) : Agg :=
  { totalproctime := (acc.totalproctime + y) % 4294967296
    maxproctime := if y > acc.maxproctime then y else acc.maxproctime
    minproctime := if y < acc.minproctime then y else acc.minproctime }

/-- Shared memory at the end of a run of three workers with elapsed times 10, 20, 30. -/
def gm_scenario_d : GMEM :=
  { nprocs := 3, pid := 3, rid := 1, start := { bar_teller := 0 },
    par_start_time := 0, partime := table [10, 20, 30] }

/-- The thread has executed `pid = gm->pid++` (lines 190-192). -/
def acquired : PC → Bool
  | PC.clock_on | PC.setup | PC.arrive | PC.waiting | PC.trace | PC.clock_off
  | PC.returned | PC.join | PC.finish | PC.exited => true
  | _ => false

/-- The thread has left the start barrier: it has begun `RayTrace` or is about to. -/
def released : PC → Bool
  | PC.trace | PC.clock_off | PC.returned | PC.join | PC.finish | PC.exited => true
  | _ => false

/-- The thread has finished `InitWorkPool` / `InitRayTreeStack` and has executed the
arrival at the start barrier (lines 220-226). -/
def arrived : PC → Bool
  | PC.waiting => true
  | pc => released pc

/-- Program points of a thread created by `pthread_create`. -/
def worker_pc : PC → Bool
  | PC.acquire | PC.clock_on | PC.setup | PC.arrive | PC.waiting | PC.trace | PC.clock_off
  | PC.returned | PC.failed => true
  | _ => false

/-- The ids handed out so far: `g` of them, all in `[0, g)`, pairwise distinct. -/
def IdsOK (l : List Thread) (g : Int) : Prop :=
  g = (l.countP (fun t => acquired t.pc) : Nat) ∧
  (∀ (k : Nat) (t : Thread), l[k]? = some t → acquired t.pc = true → 0 ≤ t.pid ∧ t.pid < g) ∧
  (∀ (j k : Nat) (t u : Thread), l[j]? = some t → l[k]? = some u → acquired t.pc = true →
    acquired u.pc = true → t.pid = u.pid → j = k)

/-- Either nobody has left the barrier and the counter equals the number of blocked
threads, or the barrier has released and everybody has left it. -/
def BarOK (l : List Thread) (teller target : Int) : Prop :=
  ((∀ t ∈ l, released t.pc = false) ∧
      teller = (l.countP (fun t => t.pc == PC.waiting) : Nat) ∧ teller < target) ∨
  ((∀ t ∈ l, released t.pc = true) ∧ teller = 0)

/-- Relation between the thread table, `__threads__`, `i`, `aantal` and `gm->nprocs` when
the main thread is at program point `pc`. -/
def main_ok (l : List Thread) (nthreads i aantal nprocs : Int) : PC → Prop
  | PC.timing => (l.length : Int) = 1 ∧ nthreads = 1
  | PC.create => (l.length : Int) = i + 1 ∧ i ≤ nprocs - 1 ∧ nthreads = l.length
  | PC.join =>
      (l.length : Int) = nprocs ∧ nthreads = aantal + 1 ∧ 0 ≤ aantal ∧ aantal < l.length ∧
      ∀ (j : Nat) (t : Thread), nthreads ≤ j → l[j]? = some t → t.pc = PC.returned
  | PC.finish =>
      (l.length : Int) = nprocs ∧
      ∀ (j : Nat) (t : Thread), 1 ≤ j → l[j]? = some t → t.pc = PC.returned
  | PC.exited =>
      (l.length : Int) = nprocs ∧
      ∀ (j : Nat) (t : Thread), 1 ≤ j → l[j]? = some t → t.pc = PC.returned
  | PC.returned => False
  | PC.failed => False
  | _ => (l.length : Int) = nprocs ∧ nthreads = l.length

/-- Invariant of all reachable states. -/
structure Inv (c : Cfg) (s : State) : Prop where
  nprocs_eq : s.gm.nprocs = c.nprocs
  nprocs_pos : 1 ≤ c.nprocs
  main : ∃ m : Thread, s.threads[0]? = some m ∧
    main_ok s.threads s.nthreads s.i s.aantal s.gm.nprocs m.pc ∧
    (m.pc = PC.exited ↔ s.exit = some 0)
  exit_ok : s.exit = none ∨ s.exit = some 0
  workers : ∀ (k : Nat) (t : Thread), 1 ≤ k → s.threads[k]? = some t → worker_pc t.pc = true
  ids : IdsOK s.threads s.gm.pid
  out_none : s.exit = none → s.out = none

/-- Program points inside `StartRayTrace`. -/
def internal : PC → Bool
  | PC.acquire | PC.clock_on | PC.setup | PC.arrive | PC.waiting | PC.trace | PC.clock_off => true
  | _ => false

/-- The part of the invariant about the thread table's shape. -/
def Frame (l : List Thread) (nthreads i aantal nprocs : Int) : Prop :=
  (∃ m : Thread, l[0]? = some m ∧ main_ok l nthreads i aantal nprocs m.pc ∧ m.pc ≠ PC.exited) ∧
  ∀ (k : Nat) (t : Thread), 1 ≤ k → l[k]? = some t → worker_pc t.pc = true

/-- Number of steps a thread at this program point still has to take, at most. -/
def rank : PC → Nat
  | PC.timing => 11 | PC.create => 10 | PC.acquire => 9 | PC.clock_on => 8 | PC.setup => 7
  | PC.arrive => 6 | PC.waiting => 5 | PC.trace => 4 | PC.clock_off => 3 | PC.join => 2
  | PC.finish => 1 | PC.returned => 0 | PC.exited => 0 | PC.failed => 0

/-- Termination measure of the whole program. -/
def measure (s : State) : Nat :=
  (s.threads.map (fun t => rank t.pc)).sum + 11 * (s.gm.nprocs - 1 - s.i).toNat + s.nthreads.toNat

/-- Invariant of the runs in which every `pthread_create` succeeds, the thread table has
room for `nprocs` threads, and `pthread_cond_wait` returns only after the broadcast. -/
structure Live (c : Cfg) (s : State) : Prop where
  inv : Inv c s
  bar : BarOK s.threads s.gm.start.bar_teller s.gm.nprocs
  no_failed : ∀ t ∈ s.threads, t.pc ≠ PC.failed
  not_aborted : s.aborted = false
  room : c.nprocs ≤ c.MAX_THREADS
  i_zero : ∀ m : Thread, s.threads[0]? = some m → m.pc = PC.timing → s.i = 0

/-- Program points whose next step is always possible and is no return from
`pthread_cond_wait`. -/
def free : PC → Bool
  | PC.waiting | PC.returned | PC.join | PC.exited | PC.failed => false
  | _ => true

/-- Sample configuration: `n` processors, statistics flag `stats`, `MAX_PROCS = 128`,
`__MAX_THREADS__ = 256`. -/
def demo (n : Int) (stats : Bool) : Cfg :=
  { MAX_PROCS := 128, MAX_THREADS := 256, argc := 1, nprocs := n, dostats := stats,
    heap_ok := true, raw_partime := fun _ => 0, raw_par_start_time := 0 }

/-- State reached by a schedule from the initial state (the initial state itself when the
schedule is not executable). -/
def run_to (c : Cfg) (sched : List Action) : State :=
  (exec c (init_state c) sched).getD (init_state c)

/-- A complete run of two threads: the worker arrives at the barrier first. -/
def sched_two : List Action :=
  [Action.run 0, Action.run 0, Action.run 0, Action.run 1, Action.run 1, Action.run 1,
   Action.run 1, Action.run 0, Action.run 0, Action.run 0, Action.run 0, Action.run 1,
   Action.run 0, Action.run 1, Action.run 0, Action.run 0, Action.run 0, Action.run 0]

/-- The thread has left `StartRayTrace`. -/
def done : PC → Bool
  | PC.returned | PC.join | PC.finish | PC.exited => true
  | _ => false

/-- Thread slot `k` holds id 0, read `b` from the clock at line 195 and is past that line;
once it has left `StartRayTrace`, and in the printed report, `par_start_time` is `b`. -/
def Tracked (k : Nat) (b : Nat) (s : State) : Prop :=
  (∃ u : Thread, s.threads[k]? = some u ∧ u.pid = 0 ∧ u.begin_t = b ∧ acquired u.pc = true ∧
    u.pc ≠ PC.clock_on ∧ (done u.pc = true → s.gm.par_start_time = b)) ∧
  (∀ r : Report, s.out = some r →
    s.gm.par_start_time = b ∧ r.without_init = usub r.end_t b)

/-- Sample run of a single thread during which the clock advances between line 195 and
the barrier, and again during `RayTrace`. -/
def sched_one_a : List Action :=
  [Action.tick, Action.tick, Action.tick, Action.tick, Action.tick,
   Action.run 0, Action.run 0, Action.run 0]

/-- Continuation of `sched_one_a` after the thread has executed line 195. -/
def sched_one_b : List Action :=
  [Action.tick, Action.run 0, Action.run 0, Action.tick, Action.run 0, Action.run 0,
   Action.run 0, Action.run 0]

/-! ## The range check of `main` (C2) -/

/-- C2. When the command line names an environment file (so that `main` reaches the range
check), `main` stops with exit code 1 and the message `Valid range for #processors is
[1, MAX_PROCS]` if and only if `nprocs < 1` or `nprocs > MAX_PROCS`; in that case `gm` is
not yet allocated and `__threads__` is still 0, so no shared state exists and no worker was
spawned; for every `nprocs` in `[1, MAX_PROCS]` the check passes and the shared state is
set up. -/
theorem C2_range_check (c : Cfg) (hargc : c.argc ≠ 0) :
    (((main_prologue c).exit = some 1 ∧
        (main_prologue c).stderr = [Msg.valid_range c.MAX_PROCS]) ↔
      (c.nprocs < 1 ∨ c.nprocs > c.MAX_PROCS)) ∧
    ((c.nprocs < 1 ∨ c.nprocs > c.MAX_PROCS) →
      (main_prologue c).gm = none ∧ (main_prologue c).nthreads = 0) ∧
    ((1 ≤ c.nprocs ∧ c.nprocs ≤ c.MAX_PROCS) →
      (main_prologue c).stderr ≠ [Msg.valid_range c.MAX_PROCS] ∧
      (main_prologue c).gm = some (gm_init c) ∧ (main_prologue c).nthreads = 1) := by
  unfold main_prologue
  by_cases h : c.nprocs < 1 ∨ c.nprocs > c.MAX_PROCS
  · simp [hargc, h]
    omega
  · have h2 : 1 ≤ c.nprocs ∧ c.nprocs ≤ c.MAX_PROCS := by omega
    cases hh : c.heap_ok <;> simp [hargc, h, hh, h2]

theorem C2_range_check_witness :
    (demo 0 false).argc ≠ 0 ∧
    ((main_prologue (demo 0 false)).exit = some 1 ∧
      (main_prologue (demo 0 false)).stderr = [Msg.valid_range 128]) ∧
    ((main_prologue (demo 0 false)).gm = none ∧ (main_prologue (demo 0 false)).nthreads = 0) ∧
    (demo 2 false).argc ≠ 0 ∧
    ((1 : Int) ≤ (demo 2 false).nprocs ∧ (demo 2 false).nprocs ≤ (demo 2 false).MAX_PROCS) ∧
    (main_prologue (demo 2 false)).gm = some (gm_init (demo 2 false)) :=
  ⟨by decide, (C2_range_check (demo 0 false) (by decide)).1.mpr (Or.inl (by decide)),
    (C2_range_check (demo 0 false) (by decide)).2.1 (Or.inl (by decide)),
    by decide, by decide,
    ((C2_range_check (demo 2 false) (by decide)).2.2 ⟨by decide, by decide⟩).2.1⟩

/-! ## Barrier counter and elapsed-time words -/

theorem arrivals_lt (N : Nat) : ∀ k : Nat, k < N → arrivals N k = k := by
  intro k
  induction k with
  | zero => intro _; rfl
  | succ k ih =>
    intro h
    have := ih (by omega)
    simp only [arrivals, barrier, this]
    rw [if_neg (by omega)]
    push_cast
    rfl

theorem lapse_lt (b e : Nat) : lapse b e < 2147483648 := by
  unfold lapse
  have : (2147483647 : Nat) = 2 ^ 31 - 1 := by norm_num
  rw [this, Nat.and_pow_two_sub_one_eq_mod]
  exact Nat.mod_lt _ (by norm_num)

theorem lapse_eq (b e d : Nat) (h : (e : Int) - b = d) (hd : d < 2147483648) : lapse b e = d := by
  unfold lapse usub
  have : (2147483647 : Nat) = 2 ^ 31 - 1 := by norm_num
  rw [this, Nat.and_pow_two_sub_one_eq_mod, h]
  omega

/-! ## The aggregation loop -/

theorem table_append (pre : List Nat) (y : Nat) (ys : List Nat) :
    table (pre ++ y :: ys) (pre.length : Int) = y := by
  simp only [table, Int.toNat_ofNat, List.getD_eq_getElem?_getD]
  rw [List.getElem?_append_right (le_refl _)]
  simp

theorem fold_table (xs : List Nat) : ∀ (pre : List Nat) (acc : Agg),
    (List.range' pre.length xs.length).foldl (agg_body (table (pre ++ xs))) acc
      = xs.foldl agg_val acc := by
  induction xs with
  | nil => intro pre acc; rfl
  | cons y ys ih =>
    intro pre acc
    have h1 : agg_body (table (pre ++ y :: ys)) acc pre.length = agg_val acc y := by
      simp only [agg_body, agg_val, table_append]
    have h2 := ih (pre ++ [y]) (agg_val acc y)
    simp only [List.length_append, List.length_singleton, List.append_assoc,
      List.singleton_append] at h2
    simp only [List.length_cons, List.range', List.foldl_cons, h1, h2]

theorem aggregate_cons (x : Nat) (xs : List Nat) :
    aggregate (table (x :: xs)) ((x :: xs).length : Int)
      = xs.foldl agg_val { totalproctime := x, maxproctime := x, minproctime := x } := by
  have h := fold_table xs [x] { totalproctime := x, maxproctime := x, minproctime := x }
  have h0 : table (x :: xs) 0 = x := by simp [table]
  simp only [List.length_singleton, List.singleton_append] at h
  simp only [aggregate, h0, List.length_cons, Int.toNat_ofNat, Nat.add_sub_cancel]
  exact h

theorem fold_max (xs : List Nat) : ∀ acc : Agg,
    ((xs.foldl agg_val acc).maxproctime = acc.maxproctime ∨
        (xs.foldl agg_val acc).maxproctime ∈ xs) ∧
    acc.maxproctime ≤ (xs.foldl agg_val acc).maxproctime ∧
    ∀ y ∈ xs, y ≤ (xs.foldl agg_val acc).maxproctime := by
  induction xs with
  | nil => intro acc; simp
  | cons y ys ih =>
    intro acc
    obtain ⟨h1, h2, h3⟩ := ih (agg_val acc y)
    simp only [List.foldl_cons, List.mem_cons, forall_eq_or_imp]
    have hm : (agg_val acc y).maxproctime = if y > acc.maxproctime then y else acc.maxproctime := rfl
    refine ⟨?_, ?_, ?_, h3⟩
    · rcases h1 with h1 | h1
      · rw [h1, hm]; split <;> simp
      · exact Or.inr (Or.inr h1)
    · rw [hm] at h2; split at h2 <;> omega
    · rw [hm] at h2; split at h2 <;> omega

theorem fold_min (xs : List Nat) : ∀ acc : Agg,
    ((xs.foldl agg_val acc).minproctime = acc.minproctime ∨
        (xs.foldl agg_val acc).minproctime ∈ xs) ∧
    (xs.foldl agg_val acc).minproctime ≤ acc.minproctime ∧
    ∀ y ∈ xs, (xs.foldl agg_val acc).minproctime ≤ y := by
  induction xs with
  | nil => intro acc; simp
  | cons y ys ih =>
    intro acc
    obtain ⟨h1, h2, h3⟩ := ih (agg_val acc y)
    simp only [List.foldl_cons, List.mem_cons, forall_eq_or_imp]
    have hm : (agg_val acc y).minproctime = if y < acc.minproctime then y else acc.minproctime := rfl
    refine ⟨?_, ?_, ?_, h3⟩
    · rcases h1 with h1 | h1
      · rw [h1, hm]; split <;> simp
      · exact Or.inr (Or.inr h1)
    · rw [hm] at h2; split at h2 <;> omega
    · rw [hm] at h2; split at h2 <;> omega

theorem fold_total (xs : List Nat) : ∀ acc : Agg,
    (xs.foldl agg_val acc).totalproctime % 4294967296
      = (acc.totalproctime + xs.sum) % 4294967296 := by
  induction xs with
  | nil => intro acc; simp
  | cons y ys ih =>
    intro acc
    have hm : (agg_val acc y).totalproctime = (acc.totalproctime + y) % 4294967296 := rfl
    simp only [List.foldl_cons, List.sum_cons, ih, hm]
    omega

theorem fold_total_lt (xs : List Nat) : ∀ acc : Agg, acc.totalproctime < 4294967296 →
    (xs.foldl agg_val acc).totalproctime < 4294967296 := by
  induction xs with
  | nil => intro acc h; simpa using h
  | cons y ys ih =>
    intro acc _
    simp only [List.foldl_cons]
    exact ih _ (Nat.mod_lt _ (by norm_num))

/-- The aggregation over a non-empty table: extremes and wrapped sum. -/
theorem aggregate_spec (x : Nat) (xs : List Nat) :
    let a := aggregate (table (x :: xs)) ((x :: xs).length : Int)
    (a.maxproctime ∈ x :: xs ∧ ∀ y ∈ x :: xs, y ≤ a.maxproctime) ∧
    (a.minproctime ∈ x :: xs ∧ ∀ y ∈ x :: xs, a.minproctime ≤ y) ∧
    a.totalproctime % 4294967296 = (x :: xs).sum % 4294967296 ∧
    (x < 4294967296 → a.totalproctime < 4294967296) := by
  intro a
  have ha : a = xs.foldl agg_val { totalproctime := x, maxproctime := x, minproctime := x } :=
    aggregate_cons x xs
  obtain ⟨m1, m2, m3⟩ := fold_max xs { totalproctime := x, maxproctime := x, minproctime := x }
  obtain ⟨n1, n2, n3⟩ := fold_min xs { totalproctime := x, maxproctime := x, minproctime := x }
  have t1 := fold_total xs { totalproctime := x, maxproctime := x, minproctime := x }
  have t2 := fold_total_lt xs { totalproctime := x, maxproctime := x, minproctime := x }
  rw [← ha] at m1 m2 m3 n1 n2 n3 t1 t2
  simp only [List.mem_cons, forall_eq_or_imp, List.sum_cons]
  refine ⟨⟨?_, m2, m3⟩, ⟨?_, n2, n3⟩, t1, t2⟩
  · rcases m1 with h | h
    · exact Or.inl h
    · exact Or.inr h
  · rcases n1 with h | h
    · exact Or.inl h
    · exact Or.inr h

/-! ## The double quotient and its cast to `int` -/

theorem norm_shift_spec (a n : Nat) : ∀ (fuel k : Nat),
    (∃ j, j < fuel ∧ 4503599627370496 ≤ a * 2 ^ (k + j) / n) →
    4503599627370496 ≤ a * 2 ^ (norm_shift a n fuel k) / n := by
  intro fuel
  induction fuel with
  | zero => intro k ⟨j, hj, _⟩; omega
  | succ f ih =>
    intro k ⟨j, hj, h⟩
    unfold norm_shift
    by_cases hk : 4503599627370496 ≤ a * 2 ^ k / n
    · rw [if_pos hk]; exact hk
    · rw [if_neg hk]
      apply ih
      cases j with
      | zero => exact absurd h hk
      | succ j =>
        refine ⟨j, by omega, ?_⟩
        have : k + 1 + j = k + (j + 1) := by omega
        rw [this]; exact h

theorem norm_shift_ok (a n : Nat) (ha : 0 < a) (hn : 0 < n) (hn2 : n < 2147483648) :
    4503599627370496 ≤ a * 2 ^ (norm_shift a n 1100 0) / n := by
  apply norm_shift_spec
  refine ⟨83, by norm_num, ?_⟩
  rw [Nat.le_div_iff_mul_le hn]
  have h1 : 4503599627370496 * n ≤ 4503599627370496 * 2147483648 :=
    Nat.mul_le_mul_left _ (le_of_lt hn2)
  have h2 : 1 * 2 ^ (0 + 83) ≤ a * 2 ^ (0 + 83) := Nat.mul_le_mul_right _ ha
  have h3 : (4503599627370496 : Nat) * 2147483648 = 1 * 2 ^ (0 + 83) := by norm_num
  omega

/-- Rounding the quotient to 53 significant bits never reaches the next integer. -/
theorem round_floor (a n P q m : Nat) (hn : 0 < n) (hP : 2 * n ≤ P)
    (hq : q = a * P / n) (hm : m = q ∨ m = q + 1) : m / P = a / n := by
  have hP0 : 0 < P := by omega
  have h1 : n * q ≤ a * P := by rw [hq]; exact Nat.mul_div_le _ _
  have h2 : a * P < n * (q + 1) := by rw [hq]; exact Nat.lt_mul_div_succ _ hn
  have h3 : n * (a / n) ≤ a := Nat.mul_div_le _ _
  have h4 : a < n * (a / n + 1) := Nat.lt_mul_div_succ _ hn
  apply Nat.div_eq_of_lt_le
  · -- a / n * P ≤ m
    have : n * (a / n * P) < n * (q + 1) := by
      calc n * (a / n * P) = n * (a / n) * P := by ring
        _ ≤ a * P := Nat.mul_le_mul_right _ h3
        _ < n * (q + 1) := h2
    have := Nat.lt_of_mul_lt_mul_left this
    rcases hm with h | h <;> omega
  · -- m < (a / n + 1) * P
    have h5 : a + 1 ≤ n * (a / n + 1) := h4
    have h6 : (a + 1) * P ≤ n * (a / n + 1) * P := Nat.mul_le_mul_right _ h5
    have h7 : n * (q + 2) ≤ n * ((a / n + 1) * P) := by
      calc n * (q + 2) = n * q + 2 * n := by ring
        _ ≤ a * P + P := by omega
        _ = (a + 1) * P := by ring
        _ ≤ n * (a / n + 1) * P := h6
        _ = n * ((a / n + 1) * P) := by ring
    have := Nat.le_of_mul_le_mul_left h7 hn
    rcases hm with h | h <;> omega

theorem fdiv_floor (a n : Nat) (ha : a < 4294967296) (hn : 0 < n) (hn2 : n < 2147483648) :
    (fdiv a n).1 / 2 ^ (fdiv a n).2 = a / n := by
  unfold fdiv
  by_cases h0 : a = 0
  · simp [h0]
  · rw [if_neg h0]
    have hk := norm_shift_ok a n (Nat.pos_of_ne_zero h0) hn hn2
    generalize norm_shift a n 1100 0 = K at hk
    have hP : 2 * n ≤ 2 ^ K := by
      have h1 : 4503599627370496 * n ≤ a * 2 ^ K := (Nat.le_div_iff_mul_le hn).mp hk
      have h2 : a * 2 ^ K ≤ 4294967296 * 2 ^ K := Nat.mul_le_mul_right _ (le_of_lt ha)
      omega
    apply round_floor a n (2 ^ K) (a * 2 ^ K / n) _ hn hP rfl
    simp only
    split
    · exact Or.inl rfl
    · split
      · exact Or.inr rfl
      · split
        · exact Or.inl rfl
        · exact Or.inr rfl

theorem average_floor (a : Nat) (n : Nat) (ha : a < 4294967296) (hn : 0 < n)
    (hn2 : n < 2147483648) (hq : a / n < 2147483648) :
    average a (n : Int) = some ((a / n : Nat) : Int) := by
  unfold average to_int
  have : (0 : Int) < (n : Int) := by exact_mod_cast hn
  rw [if_pos this, Int.toNat_ofNat, fdiv_floor a n ha hn hn2, if_pos hq]

/-! ## Statistics (C5, C6, C7) -/

theorem fold_total_eq (y : Nat) (ys : List Nat) (acc : Agg) :
    ((y :: ys).foldl agg_val acc).totalproctime
      = (acc.totalproctime + (y :: ys).sum) % 4294967296 := by
  have h1 := fold_total (y :: ys) acc
  have h2 : ((y :: ys).foldl agg_val acc).totalproctime < 4294967296 := by
    simp only [List.foldl_cons]
    exact fold_total_lt ys _ (Nat.mod_lt _ (by norm_num))
  omega

/-- C5. For every timing table of length `N ≥ 1`, with statistics enabled, the value that
`main` prints as `Min` is an entry of the table below or equal to all entries, and the
value printed as `Max` is an entry of the table above or equal to all entries. -/
theorem C5_min_max (t : List Nat) (b e : Nat) (gm : GMEM) (ht : t ≠ [])
    (hp : gm.partime = table t) (hn : gm.nprocs = (t.length : Int)) :
    ∃ st, (report true b e gm).stats = some st ∧
      (st.minproctime ∈ t ∧ ∀ y ∈ t, st.minproctime ≤ y) ∧
      (st.maxproctime ∈ t ∧ ∀ y ∈ t, y ≤ st.maxproctime) := by
  cases t with
  | nil => exact absurd rfl ht
  | cons x xs =>
    obtain ⟨hmax, hmin, _, _⟩ := aggregate_spec x xs
    refine ⟨statistics gm.partime gm.nprocs, by simp [report], ?_, ?_⟩
    · rw [hp, hn]; exact hmin
    · rw [hp, hn]; exact hmax

theorem C5_min_max_witness :
    ([10, 20, 30] : List Nat) ≠ [] ∧
    (report true 0 0 gm_scenario_d).stats
      = some { maxproctime := 30, minproctime := 10, avg := some 20 } ∧
    ∃ st, (report true 0 0 gm_scenario_d).stats = some st ∧
      (st.minproctime ∈ [10, 20, 30] ∧ ∀ y ∈ [10, 20, 30], st.minproctime ≤ y) ∧
      (st.maxproctime ∈ [10, 20, 30] ∧ ∀ y ∈ [10, 20, 30], y ≤ st.maxproctime) :=
  ⟨by decide, by decide, C5_min_max [10, 20, 30] 0 0 gm_scenario_d (by decide) rfl rfl⟩

/-- C6 (counterexample). For the table `{10, 21}` the reported average is 15, while the
sum divided by the number of workers is 31/2. -/
theorem C6_counterexample :
    (statistics (table [10, 21]) (([10, 21] : List Nat).length : Int)).avg = some 15 ∧
    ((15 : Int) : ℚ) ≠ ((([10, 21] : List Nat).sum : Nat) : ℚ) / ((([10, 21] : List Nat).length : Nat) : ℚ) := by
  refine ⟨by decide, ?_⟩
  norm_num

/-- C6 (amended). For every timing table of length `N ≥ 1` whose entries are below `2^31`
(as `StartRayTrace` stores them), the reported average is the integer part of `S / N`,
where `S` is the 32-bit unsigned running sum (the sum of the entries modulo `2^32`): the
double quotient is truncated by the cast to `int`.  When the sum does not wrap, this is the
integer part of sum / `N`. -/
theorem C6_average_floor (t : List Nat) (ht : t ≠ []) (hlen : t.length < 2147483648)
    (hent : ∀ x ∈ t, x < 2147483648) :
    (statistics (table t) (t.length : Int)).avg
        = some (((t.sum % 4294967296 / t.length : Nat)) : Int) ∧
    (t.sum < 4294967296 →
      (statistics (table t) (t.length : Int)).avg = some ⌊((t.sum : Nat) : ℚ) / ((t.length : Nat) : ℚ)⌋) := by
  cases t with
  | nil => exact absurd rfl ht
  | cons x xs =>
    obtain ⟨_, _, hsum, hlt⟩ := aggregate_spec x xs
    have hx : x < 2147483648 := hent x (List.mem_cons_self _ _)
    have htot : (aggregate (table (x :: xs)) ((x :: xs).length : Int)).totalproctime
        = (x :: xs).sum % 4294967296 := by
      have := hlt (by omega)
      omega
    have hq : (x :: xs).sum % 4294967296 / (x :: xs).length < 2147483648 := by
      cases xs with
      | nil =>
        simp only [List.sum_cons, List.sum_nil, List.length_singleton, Nat.div_one]
        omega
      | cons y ys =>
        have h1 : (x :: y :: ys).sum % 4294967296 < 4294967296 := Nat.mod_lt _ (by norm_num)
        have h2 : 2 ≤ (x :: y :: ys).length := by simp
        calc (x :: y :: ys).sum % 4294967296 / (x :: y :: ys).length
            ≤ (x :: y :: ys).sum % 4294967296 / 2 := Nat.div_le_div_left h2 (by norm_num)
          _ < 2147483648 := by omega
    have hmain : (statistics (table (x :: xs)) ((x :: xs).length : Int)).avg
        = some ((((x :: xs).sum % 4294967296 / (x :: xs).length : Nat)) : Int) := by
      simp only [statistics, htot]
      exact average_floor _ _ (Nat.mod_lt _ (by norm_num)) (by simp) hlen hq
    refine ⟨hmain, fun hs => ?_⟩
    rw [hmain, Nat.mod_eq_of_lt hs]
    congr 1
    rw [Rat.floor_natCast_div_natCast]
    exact Int.natCast_div _ _

theorem C6_average_floor_witness :
    ([10, 20, 30] : List Nat) ≠ [] ∧ ([10, 20, 30] : List Nat).length < 2147483648 ∧
    (∀ x ∈ ([10, 20, 30] : List Nat), x < 2147483648) ∧
    (statistics (table [10, 20, 30]) (([10, 20, 30] : List Nat).length : Int)).avg
      = some (((([10, 20, 30] : List Nat).sum % 4294967296 / ([10, 20, 30] : List Nat).length
          : Nat)) : Int) ∧
    (statistics (table [10, 20, 30]) (([10, 20, 30] : List Nat).length : Int)).avg = some 20 ∧
    ([10, 20, 30] : List Nat).sum < 4294967296 ∧
    (statistics (table [10, 20, 30]) (([10, 20, 30] : List Nat).length : Int)).avg
      = some ⌊((([10, 20, 30] : List Nat).sum : Nat) : ℚ)
          / ((([10, 20, 30] : List Nat).length : Nat) : ℚ)⌋ :=
  ⟨by decide, by decide, by decide,
    (C6_average_floor [10, 20, 30] (by decide) (by decide) (by decide)).1, by decide,
    by decide,
    (C6_average_floor [10, 20, 30] (by decide) (by decide) (by decide)).2 (by decide)⟩

/-- C7. For every timing table of length `N ≥ 1` and every permutation of its entries, the
statistics of `main` (32-bit running sum, minimum, maximum, average) give the same `Min`,
`Max` and `Avg` on the permuted table as on the original one. -/
theorem C7_order_independent (t1 t2 : List Nat) (hp : t1.Perm t2) (ht : t1 ≠ []) :
    statistics (table t1) (t1.length : Int) = statistics (table t2) (t2.length : Int) := by
  cases t1 with
  | nil => exact absurd rfl ht
  | cons x xs =>
    cases t2 with
    | nil => exact absurd hp.eq_nil (by simp)
    | cons y ys =>
      obtain ⟨⟨a1, a2⟩, ⟨a3, a4⟩, _, _⟩ := aggregate_spec x xs
      obtain ⟨⟨b1, b2⟩, ⟨b3, b4⟩, _, _⟩ := aggregate_spec y ys
      have hlen : (x :: xs).length = (y :: ys).length := hp.length_eq
      have hmax : (aggregate (table (x :: xs)) ((x :: xs).length : Int)).maxproctime
          = (aggregate (table (y :: ys)) ((y :: ys).length : Int)).maxproctime :=
        le_antisymm (b2 _ (hp.subset a1)) (a2 _ (hp.symm.subset b1))
      have hmin : (aggregate (table (x :: xs)) ((x :: xs).length : Int)).minproctime
          = (aggregate (table (y :: ys)) ((y :: ys).length : Int)).minproctime :=
        le_antisymm (a4 _ (hp.symm.subset b3)) (b4 _ (hp.subset a3))
      have htot : (aggregate (table (x :: xs)) ((x :: xs).length : Int)).totalproctime
          = (aggregate (table (y :: ys)) ((y :: ys).length : Int)).totalproctime := by
        cases xs with
        | nil =>
          have : y :: ys = [x] := List.perm_singleton.mp hp.symm
          rw [this]
        | cons x2 xs2 =>
          cases ys with
          | nil => simp at hlen
          | cons y2 ys2 =>
            rw [aggregate_cons, aggregate_cons, fold_total_eq, fold_total_eq]
            have : (x :: x2 :: xs2).sum = (y :: y2 :: ys2).sum := hp.sum_eq
            simp only [List.sum_cons] at this ⊢
            omega
      simp only [statistics]
      rw [hmax, hmin, htot, hlen]

theorem C7_order_independent_witness :
    ([10, 20, 30] : List Nat).Perm [30, 10, 20] ∧ ([10, 20, 30] : List Nat) ≠ [] ∧
    statistics (table [10, 20, 30]) (([10, 20, 30] : List Nat).length : Int)
      = statistics (table [30, 10, 20]) (([30, 10, 20] : List Nat).length : Int) :=
  ⟨by decide, by decide, C7_order_independent _ _ (by decide) (by decide)⟩

/-! ## Lists under `set` -/

theorem get_set_cases {α : Type} (l : List α) (k j : Nat) (a u : α)
    (h : (l.set k a)[j]? = some u) :
    (j = k ∧ u = a) ∨ (j ≠ k ∧ l[j]? = some u) := by
  rw [List.getElem?_set] at h
  by_cases hkj : k = j
  · rw [if_pos hkj] at h
    split at h
    · exact Or.inl ⟨hkj.symm, (Option.some.inj h).symm⟩
    · exact absurd h (by simp)
  · rw [if_neg hkj] at h
    exact Or.inr ⟨fun e => hkj e.symm, h⟩

theorem get_set_self {α : Type} (l : List α) (k : Nat) (t a : α) (hk : l[k]? = some t) :
    (l.set k a)[k]? = some a := by
  rw [List.getElem?_set, if_pos rfl, if_pos]
  exact (List.getElem?_eq_some.mp hk).1

theorem get_set_other {α : Type} (l : List α) (k j : Nat) (a : α) (h : j ≠ k) :
    (l.set k a)[j]? = l[j]? := by
  rw [List.getElem?_set, if_neg (fun e => h e.symm)]

theorem sum_set {α : Type} (f : α → Nat) : ∀ (l : List α) (k : Nat) (t a : α),
    l[k]? = some t → ((l.set k a).map f).sum + f t = (l.map f).sum + f a := by
  intro l
  induction l with
  | nil => intro k t a h; simp at h
  | cons x xs ih =>
    intro k t a h
    cases k with
    | zero =>
      simp only [List.getElem?_cons_zero, Option.some.injEq] at h
      subst h
      simp only [List.set_cons_zero, List.map_cons, List.sum_cons]
      omega
    | succ k =>
      simp only [List.getElem?_cons_succ] at h
      have := ih k t a h
      simp only [List.set_cons_succ, List.map_cons, List.sum_cons]
      omega

theorem countP_set {α : Type} (p : α → Bool) : ∀ (l : List α) (k : Nat) (t a : α),
    l[k]? = some t →
    (l.set k a).countP p + (if p t then 1 else 0) = l.countP p + (if p a then 1 else 0) := by
  intro l
  induction l with
  | nil => intro k t a h; simp at h
  | cons x xs ih =>
    intro k t a h
    cases k with
    | zero =>
      simp only [List.getElem?_cons_zero, Option.some.injEq] at h
      subst h
      simp only [List.set_cons_zero, List.countP_cons]
      omega
    | succ k =>
      simp only [List.getElem?_cons_succ] at h
      have := ih k t a h
      simp only [List.set_cons_succ, List.countP_cons]
      omega

theorem countP_succ_le {α : Type} (q : α → Bool) : ∀ (ys : List α) (m : Nat) (v : α),
    ys[m]? = some v → q v = false → ys.countP q + 1 ≤ ys.length := by
  intro ys
  induction ys with
  | nil => intro m v hm; simp at hm
  | cons y ys ih2 =>
    intro m v hm hq
    have hle2 : ys.countP q ≤ ys.length := List.countP_le_length q
    cases m with
    | zero =>
      simp only [List.getElem?_cons_zero, Option.some.injEq] at hm
      subst hm
      simp only [List.countP_cons, hq, List.length_cons]
      simp; omega
    | succ m =>
      simp only [List.getElem?_cons_succ] at hm
      have := ih2 m v hm hq
      simp only [List.countP_cons, List.length_cons]
      split <;> omega

/-- When all but one slot satisfy `p` by count, every other slot satisfies `p`. -/
theorem all_of_countP {α : Type} (p : α → Bool) : ∀ (l : List α) (k : Nat) (t : α),
    l[k]? = some t → p t = false → l.length ≤ l.countP p + 1 →
    ∀ j u, l[j]? = some u → j ≠ k → p u = true := by
  intro l
  induction l with
  | nil => intro k t h; simp at h
  | cons x xs ih =>
    intro k t h hp hc j u hj hjk
    have hle : xs.countP p ≤ xs.length := List.countP_le_length p
    cases k with
    | zero =>
      simp only [List.getElem?_cons_zero, Option.some.injEq] at h
      subst h
      simp only [List.countP_cons, hp, List.length_cons] at hc
      have hall : xs.countP p = xs.length := by simp at hc; omega
      rw [List.countP_eq_length] at hall
      cases j with
      | zero => exact absurd rfl hjk
      | succ j =>
        simp only [List.getElem?_cons_succ] at hj
        exact hall u (List.getElem?_mem hj)
    | succ k =>
      simp only [List.getElem?_cons_succ] at h
      simp only [List.countP_cons, List.length_cons] at hc
      have hk1 : xs.countP p + 1 ≤ xs.length := countP_succ_le p xs k t h hp
      have hx : p x = true := by
        by_contra hx
        simp only [hx] at hc
        simp at hc
        omega
      cases j with
      | zero =>
        simp only [List.getElem?_cons_zero, Option.some.injEq] at hj
        subst hj; exact hx
      | succ j =>
        simp only [List.getElem?_cons_succ] at hj
        apply ih k t h hp _ j u hj (by omega)
        simp only [hx, if_true] at hc
        omega

/-! ## Identifier invariant -/

theorem ids_transfer (l l2 : List Thread) (g : Int) (h : IdsOK l g)
    (hc : l2.countP (fun t => acquired t.pc) = l.countP (fun t => acquired t.pc))
    (hget : ∀ (j : Nat) (u : Thread), l2[j]? = some u →
      ∃ u0 : Thread, l[j]? = some u0 ∧ acquired u.pc = acquired u0.pc ∧ u.pid = u0.pid) :
    IdsOK l2 g := by
  obtain ⟨h1, h2, h3⟩ := h
  refine ⟨by rw [hc]; exact h1, ?_, ?_⟩
  · intro k t hk ha
    obtain ⟨u0, e1, e2, e3⟩ := hget k t hk
    rw [e3]; exact h2 k u0 e1 (by rw [← e2]; exact ha)
  · intro j k t u hj hk ha hb hp
    obtain ⟨t0, e1, e2, e3⟩ := hget j t hj
    obtain ⟨u0, f1, f2, f3⟩ := hget k u hk
    exact h3 j k t0 u0 e1 f1 (by rw [← e2]; exact ha) (by rw [← f2]; exact hb)
      (by rw [← e3, ← f3]; exact hp)

theorem ids_set_same (l : List Thread) (g : Int) (k : Nat) (t a : Thread) (h : IdsOK l g)
    (hk : l[k]? = some t) (ha : acquired a.pc = acquired t.pc) (hp : a.pid = t.pid) :
    IdsOK (l.set k a) g := by
  apply ids_transfer l _ g h
  · have := countP_set (fun t => acquired t.pc) l k t a hk
    simp only [ha] at this
    omega
  · intro j u hj
    rcases get_set_cases l k j a u hj with ⟨e1, e2⟩ | ⟨_, e2⟩
    · subst e1 e2; exact ⟨t, hk, ha, hp⟩
    · exact ⟨u, e2, rfl, rfl⟩

theorem ids_map (l : List Thread) (g : Int) (f : Thread → Thread) (h : IdsOK l g)
    (hf : ∀ t, acquired (f t).pc = acquired t.pc ∧ (f t).pid = t.pid) :
    IdsOK (l.map f) g := by
  apply ids_transfer l _ g h
  · rw [List.countP_map]
    congr 1
    funext t
    exact (hf t).1
  · intro j u hj
    rw [List.getElem?_map] at hj
    cases hl : l[j]? with
    | none => rw [hl] at hj; simp at hj
    | some u0 =>
      rw [hl] at hj
      simp only [Option.map_some', Option.some.injEq] at hj
      subst hj
      exact ⟨u0, rfl, (hf u0).1, (hf u0).2⟩

theorem ids_append (l : List Thread) (g : Int) (a : Thread) (h : IdsOK l g)
    (ha : acquired a.pc = false) : IdsOK (l ++ [a]) g := by
  obtain ⟨h1, h2, h3⟩ := h
  have key : ∀ (j : Nat) (u : Thread), (l ++ [a])[j]? = some u → acquired u.pc = true → l[j]? = some u := by
    intro j u hj hu
    rw [List.getElem?_append] at hj
    split at hj
    · exact hj
    · have : u = a := by
        cases hh : j - l.length with
        | zero => rw [hh] at hj; simpa using hj.symm
        | succ m => rw [hh] at hj; simp at hj
      rw [this, ha] at hu
      exact absurd hu (by simp)
  refine ⟨by simp [List.countP_append, List.countP_cons, ha]; exact h1, ?_, ?_⟩
  · intro k t hk hacq
    exact h2 k t (key k t hk hacq) hacq
  · intro j k t u hj hk hat hau hp
    exact h3 j k t u (key j t hj hat) (key k u hk hau) hat hau hp

theorem ids_set_acquire (l : List Thread) (g : Int) (k : Nat) (t a : Thread) (h : IdsOK l g)
    (hk : l[k]? = some t) (ht : acquired t.pc = false) (ha : acquired a.pc = true)
    (hp : a.pid = g) : IdsOK (l.set k a) (g + 1) := by
  obtain ⟨h1, h2, h3⟩ := h
  refine ⟨?_, ?_, ?_⟩
  · have := countP_set (fun t => acquired t.pc) l k t a hk
    simp only [ha, ht] at this
    simp at this
    omega
  · intro j u hj hu
    rcases get_set_cases l k j a u hj with ⟨_, e2⟩ | ⟨_, e2⟩
    · subst e2; omega
    · have := h2 j u e2 hu; omega
  · intro i j u v hi hj hu hv hpid
    rcases get_set_cases l k i a u hi with ⟨e1, e2⟩ | ⟨e1, e2⟩ <;>
    rcases get_set_cases l k j a v hj with ⟨f1, f2⟩ | ⟨f1, f2⟩
    · omega
    · subst e2; have := h2 j v f2 hv; omega
    · subst f2; have := h2 i u e2 hu; omega
    · exact h3 i j u v e2 f2 hu hv hpid

/-! ## Barrier invariant -/

theorem bar_before (l : List Thread) (τ N : Int) (k : Nat) (t a : Thread) (h : BarOK l τ N)
    (hk : l[k]? = some t) (ht : released t.pc = false) (htw : t.pc ≠ PC.waiting)
    (ha : released a.pc = false) (haw : a.pc ≠ PC.waiting) : BarOK (l.set k a) τ N := by
  rcases h with ⟨h1, h2, h3⟩ | ⟨h1, _⟩
  · left
    refine ⟨?_, ?_, h3⟩
    · intro u hu
      rcases List.mem_or_eq_of_mem_set hu with hu | hu
      · exact h1 u hu
      · rw [hu]; exact ha
    · have := countP_set (fun t => t.pc == PC.waiting) l k t a hk
      simp only [beq_iff_eq, htw, haw] at this
      simp at this
      omega
  · have := h1 t (List.getElem?_mem hk)
    rw [ht] at this
    exact absurd this (by simp)

theorem bar_after (l : List Thread) (τ N : Int) (k : Nat) (t a : Thread) (h : BarOK l τ N)
    (hk : l[k]? = some t) (ht : released t.pc = true) (ha : released a.pc = true) :
    BarOK (l.set k a) τ N := by
  rcases h with ⟨h1, _, _⟩ | ⟨h1, h2⟩
  · have := h1 t (List.getElem?_mem hk)
    rw [ht] at this
    exact absurd this (by simp)
  · right
    refine ⟨?_, h2⟩
    intro u hu
    rcases List.mem_or_eq_of_mem_set hu with hu | hu
    · exact h1 u hu
    · rw [hu]; exact ha

theorem bar_wait (l : List Thread) (τ N : Int) (k : Nat) (t a : Thread) (h : BarOK l τ N)
    (hne : τ + 1 ≠ N)
    (hk : l[k]? = some t) (ht : released t.pc = false) (htw : t.pc ≠ PC.waiting)
    (ha : a.pc = PC.waiting) : BarOK (l.set k a) (τ + 1) N := by
  rcases h with ⟨h1, h2, h3⟩ | ⟨h1, _⟩
  · left
    refine ⟨?_, ?_, ?_⟩
    · intro u hu
      rcases List.mem_or_eq_of_mem_set hu with hu | hu
      · exact h1 u hu
      · rw [hu, ha]; rfl
    · have := countP_set (fun t => t.pc == PC.waiting) l k t a hk
      simp only [beq_iff_eq, htw, ha] at this
      simp at this
      omega
    · omega
  · have := h1 t (List.getElem?_mem hk)
    rw [ht] at this
    exact absurd this (by simp)

theorem wake_pc (t : Thread) : (wake t).pc = if t.pc = PC.waiting then PC.trace else t.pc := by
  unfold wake; split <;> simp_all

theorem wake_pid (t : Thread) : (wake t).pid = t.pid := by
  unfold wake; split <;> rfl

theorem wake_begin (t : Thread) : (wake t).begin_t = t.begin_t := by
  unfold wake; split <;> rfl

theorem bar_release (l : List Thread) (τ N : Int) (k : Nat) (t a : Thread) (h : BarOK l τ N)
    (hlen : (l.length : Int) ≤ N) (he : τ + 1 = N)
    (hk : l[k]? = some t) (ht : released t.pc = false) (htw : t.pc ≠ PC.waiting)
    (ha : released a.pc = true) :
    BarOK ((l.map wake).set k a) 0 N ∧ (l.length : Int) = N ∧
      ∀ (j : Nat) (u : Thread), l[j]? = some u → j ≠ k → u.pc = PC.waiting := by
  rcases h with ⟨h1, h2, h3⟩ | ⟨h1, _⟩
  · have hc := countP_succ_le (fun t => t.pc == PC.waiting) l k t hk (by simp [htw])
    have hall := all_of_countP (fun t => t.pc == PC.waiting) l k t hk (by simp [htw])
      (by omega)
    refine ⟨?_, by omega, ?_⟩
    · right
      refine ⟨?_, rfl⟩
      intro u hu
      obtain ⟨j, hj⟩ := List.getElem?_of_mem hu
      rcases get_set_cases _ k j a u hj with ⟨_, e2⟩ | ⟨e1, e2⟩
      · rw [e2]; exact ha
      · rw [List.getElem?_map] at e2
        cases hl : l[j]? with
        | none => rw [hl] at e2; simp at e2
        | some u0 =>
          rw [hl] at e2
          simp only [Option.map_some', Option.some.injEq] at e2
          have hw := hall j u0 hl e1
          simp only [beq_iff_eq] at hw
          rw [← e2, wake_pc, if_pos hw]; rfl
    · intro j u hj hjk
      have := hall j u hj hjk
      simpa using this
  · have := h1 t (List.getElem?_mem hk)
    rw [ht] at this
    exact absurd this (by simp)

theorem bar_append (l : List Thread) (τ N : Int) (a m : Thread) (h : BarOK l τ N)
    (hm : l[0]? = some m) (hmr : released m.pc = false)
    (ha : released a.pc = false) (haw : a.pc ≠ PC.waiting) : BarOK (l ++ [a]) τ N := by
  rcases h with ⟨h1, h2, h3⟩ | ⟨h1, _⟩
  · left
    refine ⟨?_, ?_, h3⟩
    · intro u hu
      rcases List.mem_append.mp hu with hu | hu
      · exact h1 u hu
      · rw [List.mem_singleton.mp hu]; exact ha
    · simp [List.countP_append, List.countP_cons, haw]; exact h2
  · have := h1 m (List.getElem?_mem hm)
    rw [hmr] at this
    exact absurd this (by simp)

/-! ## Bookkeeping of the main thread -/

theorem main_ok_length (l : List Thread) (n i a N : Int) (pc : PC) (hN : 1 ≤ N)
    (h : main_ok l n i a N pc) : (l.length : Int) ≤ N := by
  cases pc <;> simp only [main_ok] at h <;> omega

theorem main_ok_set (l : List Thread) (n i a N : Int) (pc : PC) (k : Nat) (t u : Thread)
    (h : main_ok l n i a N pc) (hk : l[k]? = some t) (ht : t.pc ≠ PC.returned)
    (hk1 : 1 ≤ k) :
    main_ok (l.set k u) n i a N pc := by
  have key : ∀ (j : Nat) (v : Thread), (l.set k u)[j]? = some v →
      (∀ w : Thread, l[j]? = some w → w.pc = PC.returned) → v.pc = PC.returned := by
    intro j v hj hw
    rcases get_set_cases l k j u v hj with ⟨e1, _⟩ | ⟨_, e2⟩
    · subst e1; exact absurd (hw t hk) ht
    · exact hw v e2
  cases pc <;> simp only [main_ok, List.length_set] at h ⊢ <;> try exact h
  · obtain ⟨h1, h2, h3, h4, h5⟩ := h
    exact ⟨h1, h2, h3, h4, fun j v hj hv => key j v hv (fun w hw => h5 j w hj hw)⟩
  · obtain ⟨h1, h5⟩ := h
    exact ⟨h1, fun j v hj hv => key j v hv (fun w hw => h5 j w hj hw)⟩
  · obtain ⟨h1, h5⟩ := h
    exact ⟨h1, fun j v hj hv => key j v hv (fun w hw => h5 j w hj hw)⟩

/-! ## The invariant and its preservation -/

theorem inv_init (c : Cfg) (h : 1 ≤ c.nprocs) : Inv c (init_state c) := by
  refine ⟨rfl, h, ⟨_, rfl, ?_, ?_⟩, Or.inl rfl, ?_, ?_, fun _ => rfl⟩
  · simp [main_ok, init_state]
  · simp [init_state]
  · intro k t hk ht
    cases k with
    | zero => omega
    | succ k => simp [init_state] at ht
  · refine ⟨by simp [init_state, gm_init, acquired], ?_, ?_⟩
    · intro k t hk ha
      cases k with
      | zero =>
        simp [init_state] at hk
        subst hk
        simp [acquired] at ha
      | succ k => simp [init_state] at hk
    · intro j k t u hj _ ha
      cases j with
      | zero =>
        simp [init_state] at hj
        subst hj
        simp [acquired] at ha
      | succ k => simp [init_state] at hj

theorem bar_init (c : Cfg) (h : 1 ≤ c.nprocs) :
    BarOK (init_state c).threads (init_state c).gm.start.bar_teller (init_state c).gm.nprocs := by
  left
  refine ⟨?_, by simp [init_state, gm_init], by simp [init_state, gm_init]; omega⟩
  intro t ht
  simp [init_state] at ht
  subst ht
  rfl

theorem inv_length (c : Cfg) (s : State) (h : Inv c s) : (s.threads.length : Int) ≤ s.gm.nprocs := by
  obtain ⟨m, _, hm, _⟩ := h.main
  exact main_ok_length _ _ _ _ _ _ (by rw [h.nprocs_eq]; exact h.nprocs_pos) hm

theorem inv_tick (c : Cfg) (s : State) (h : Inv c s) : Inv c { s with clock := s.clock + 1 } :=
  ⟨h.nprocs_eq, h.nprocs_pos, h.main, h.exit_ok, h.workers, h.ids, h.out_none⟩

theorem inv_spawn (c : Cfg) (s : State) (ok : Bool) (m : Thread) (h : Inv c s)
    (hm : s.threads[0]? = some m) (hpc : m.pc = PC.create) (hi : s.i < s.gm.nprocs - 1)
    (hex : s.exit = none) :
    Inv c (spawn c s ok) := by
  obtain ⟨m2, hm2, hok, hx⟩ := h.main
  rw [hm] at hm2
  have e := Option.some.inj hm2
  subst e
  unfold spawn
  split
  · have hlen : 0 < s.threads.length := (List.getElem?_eq_some.mp hm).1
    have hm3 : (s.threads ++ [new_thread ok])[0]? = some m := by
      rw [List.getElem?_append_left hlen]; exact hm
    have hnew : ∀ b : Bool, acquired (new_thread b).pc = false ∧
        released (new_thread b).pc = false ∧ (new_thread b).pc ≠ PC.waiting ∧
        worker_pc (new_thread b).pc = true := by
      intro b; cases b <;> simp [new_thread, acquired, released, worker_pc]
    refine ⟨h.nprocs_eq, h.nprocs_pos, ⟨m, hm3, ?_, ?_⟩, h.exit_ok, ?_, ?_, h.out_none⟩
    · rw [hpc] at hok ⊢
      simp only [main_ok, List.length_append, List.length_singleton] at hok ⊢
      push_cast
      omega
    · rw [hpc]; simp [hex]
    · intro k t hk ht
      rw [List.getElem?_append] at ht
      split at ht
      · exact h.workers k t hk ht
      · cases hh : k - s.threads.length with
        | zero =>
          rw [hh] at ht
          simp only [List.getElem?_cons_zero, Option.some.injEq] at ht
          subst ht
          exact (hnew ok).2.2.2
        | succ j => rw [hh] at ht; simp at ht
    · exact ids_append _ _ _ h.ids (hnew ok).1
  · exact ⟨h.nprocs_eq, h.nprocs_pos, h.main, h.exit_ok, h.workers, h.ids, h.out_none⟩

theorem bar_spawn (c : Cfg) (s : State) (ok : Bool) (m : Thread)
    (hbar : BarOK s.threads s.gm.start.bar_teller s.gm.nprocs)
    (hm : s.threads[0]? = some m) (hpc : m.pc = PC.create) :
    BarOK (spawn c s ok).threads (spawn c s ok).gm.start.bar_teller (spawn c s ok).gm.nprocs := by
  unfold spawn
  split
  · have hnew : released (new_thread ok).pc = false ∧ (new_thread ok).pc ≠ PC.waiting := by
      cases ok <;> simp [new_thread, released]
    exact bar_append _ _ _ _ m hbar hm (by rw [hpc]; rfl) hnew.1 hnew.2
  · exact hbar

theorem frame_of_inv (c : Cfg) (s : State) (h : Inv c s) (hex : s.exit = none) :
    Frame s.threads s.nthreads s.i s.aantal s.gm.nprocs := by
  obtain ⟨m, hm, hok, hx⟩ := h.main
  refine ⟨⟨m, hm, hok, ?_⟩, h.workers⟩
  intro e
  rw [hx.mp e] at hex
  exact absurd hex (by simp)

theorem main_ok_internal (l l2 : List Thread) (n i a N : Int) (p q : PC)
    (hp : internal p = true) (hq : internal q = true) (hl : l2.length = l.length)
    (h : main_ok l n i a N p) : main_ok l2 n i a N q := by
  cases p <;> simp [internal] at hp <;> cases q <;> simp [internal] at hq <;>
    simp only [main_ok, hl] at h ⊢ <;> exact h

theorem frame_internal (l : List Thread) (n i a N : Int) (k : Nat) (t u : Thread)
    (h : Frame l n i a N) (hk : l[k]? = some t) (ht : internal t.pc = true)
    (hu : internal u.pc = true) : Frame (l.set k u) n i a N := by
  obtain ⟨⟨m, hm, hok, hne⟩, hw⟩ := h
  have hwu : worker_pc u.pc = true := by
    revert hu; cases u.pc <;> simp [internal, worker_pc]
  have htr : t.pc ≠ PC.returned := by
    intro e; rw [e] at ht; simp [internal] at ht
  have hue : u.pc ≠ PC.exited := by
    intro e; rw [e] at hu; simp [internal] at hu
  constructor
  · cases k with
    | zero =>
      rw [hm] at hk
      have e := Option.some.inj hk
      subst e
      exact ⟨u, get_set_self l 0 m u hm,
        main_ok_internal l _ n i a N m.pc u.pc ht hu (List.length_set _ _ _) hok, hue⟩
    | succ k =>
      refine ⟨m, ?_, main_ok_set l n i a N m.pc (k + 1) t u hok hk htr (by omega), hne⟩
      rw [get_set_other l (k + 1) 0 u (by omega)]; exact hm
  · intro j v hj hv
    rcases get_set_cases l k j u v hv with ⟨_, e2⟩ | ⟨_, e2⟩
    · rw [e2]; exact hwu
    · exact hw j v hj e2

theorem get_map_wake (l : List Thread) (j : Nat) (v : Thread) (h : (l.map wake)[j]? = some v) :
    ∃ v0 : Thread, l[j]? = some v0 ∧ v = wake v0 := by
  rw [List.getElem?_map] at h
  cases hl : l[j]? with
  | none => rw [hl] at h; simp at h
  | some v0 =>
    rw [hl] at h
    simp only [Option.map_some', Option.some.injEq] at h
    exact ⟨v0, rfl, h.symm⟩

theorem main_ok_wake (l : List Thread) (n i a N : Int) (p : PC) (h : main_ok l n i a N p) :
    main_ok (l.map wake) n i a N (if p = PC.waiting then PC.trace else p) := by
  have key : ∀ (j : Nat) (v : Thread), (l.map wake)[j]? = some v →
      (∀ w : Thread, l[j]? = some w → w.pc = PC.returned) → v.pc = PC.returned := by
    intro j v hj hw
    obtain ⟨v0, e1, e2⟩ := get_map_wake l j v hj
    have := hw v0 e1
    rw [e2, wake_pc, this]; rfl
  cases p <;> simp only [main_ok, List.length_map, reduceCtorEq, if_false, if_true] at h ⊢ <;>
    try exact h
  · obtain ⟨h1, h2, h3, h4, h5⟩ := h
    exact ⟨h1, h2, h3, h4, fun j v hj hv => key j v hv (fun w hw => h5 j w hj hw)⟩
  · obtain ⟨h1, h5⟩ := h
    exact ⟨h1, fun j v hj hv => key j v hv (fun w hw => h5 j w hj hw)⟩
  · obtain ⟨h1, h5⟩ := h
    exact ⟨h1, fun j v hj hv => key j v hv (fun w hw => h5 j w hj hw)⟩

theorem frame_wake (l : List Thread) (n i a N : Int) (h : Frame l n i a N) :
    Frame (l.map wake) n i a N := by
  obtain ⟨⟨m, hm, hok, hne⟩, hw⟩ := h
  constructor
  · refine ⟨wake m, by rw [List.getElem?_map, hm]; rfl, ?_, ?_⟩
    · rw [wake_pc]; exact main_ok_wake l n i a N m.pc hok
    · rw [wake_pc]; split
      · simp
      · exact hne
  · intro j v hj hv
    obtain ⟨v0, e1, e2⟩ := get_map_wake l j v hv
    have := hw j v0 hj e1
    rw [e2, wake_pc]
    split
    · rfl
    · exact this

/-- Rebuild the invariant from its shape part and the counters. -/
theorem inv_of_frame (c : Cfg) (s : State) (hn : s.gm.nprocs = c.nprocs) (hp : 1 ≤ c.nprocs)
    (hex : s.exit = none) (hout : s.out = none) (hi : IdsOK s.threads s.gm.pid)
    (hf : Frame s.threads s.nthreads s.i s.aantal s.gm.nprocs) : Inv c s := by
  obtain ⟨⟨m, hm, hok, hne⟩, hw⟩ := hf
  refine ⟨hn, hp, ⟨m, hm, hok, ?_⟩, Or.inl hex, hw, hi, fun _ => hout⟩
  constructor
  · intro e; exact absurd e hne
  · intro e; rw [hex] at e; exact absurd e (by simp)

theorem record_frame (d : Bool) (p : Int) (b e : Nat) (g : GMEM) :
    (record d p b e g).pid = g.pid ∧ (record d p b e g).nprocs = g.nprocs ∧
    (record d p b e g).start = g.start := by
  unfold record
  split
  · split <;> exact ⟨rfl, rfl, rfl⟩
  · exact ⟨rfl, rfl, rfl⟩

theorem main_slot (l : List Thread) (n i a N : Int) (k : Nat) (t : Thread)
    (h : Frame l n i a N) (hk : l[k]? = some t) (ht : worker_pc t.pc = false) :
    k = 0 ∧ l[0]? = some t := by
  cases k with
  | zero => exact ⟨rfl, hk⟩
  | succ k =>
    have := h.2 (k + 1) t (by omega) hk
    rw [ht] at this
    exact absurd this (by simp)

theorem frame_main (l : List Thread) (n i a N : Int) (t : Thread)
    (h : Frame l n i a N) (hk : l[0]? = some t) : main_ok l n i a N t.pc := by
  obtain ⟨⟨m, hm, hok, _⟩, _⟩ := h
  rw [hk] at hm
  have e := Option.some.inj hm
  subst e
  exact hok

theorem workers_set_zero (l : List Thread) (u : Thread)
    (h : ∀ (k : Nat) (t : Thread), 1 ≤ k → l[k]? = some t → worker_pc t.pc = true) :
    ∀ (k : Nat) (t : Thread), 1 ≤ k → (l.set 0 u)[k]? = some t → worker_pc t.pc = true := by
  intro k t hk ht
  rw [get_set_other l 0 k u (by omega)] at ht
  exact h k t hk ht

theorem inv_run_thread (c : Cfg) (s s2 : State) (k : Nat) (t : Thread) (h : Inv c s)
    (hex : s.exit = none) (hk : s.threads[k]? = some t)
    (hr : run_thread c s k t = some s2) : Inv c s2 := by
  have hF := frame_of_inv c s h hex
  have hN := h.nprocs_eq
  have hpos := h.nprocs_pos
  obtain ⟨pc, pid, b, e⟩ := t
  cases pc <;> simp only [run_thread] at hr
  case waiting =>
    simp only [Option.some.injEq] at hr
    subst hr
    refine inv_of_frame c _ (by exact hN) hpos (by exact hex) (by exact h.out_none hex) ?_ ?_
    · exact ids_set_same _ _ _ _ _ h.ids hk rfl rfl
    · exact frame_internal _ _ _ _ _ _ _ _ hF hk rfl rfl
  case returned => exact absurd hr (by simp)
  case exited => exact absurd hr (by simp)
  case failed => exact absurd hr (by simp)
  case timing =>
    obtain ⟨hk0, hm⟩ := main_slot _ _ _ _ _ k _ hF hk rfl
    subst hk0
    have hok := frame_main _ _ _ _ _ _ hF hm
    simp only [main_ok] at hok
    simp only [Option.some.injEq] at hr
    subst hr
    refine inv_of_frame c _ (by exact hN) hpos (by exact hex) (by exact h.out_none hex) ?_ ?_
    · exact ids_set_same _ _ _ _ _ h.ids hk rfl rfl
    · refine ⟨⟨_, get_set_self _ 0 _ _ hk, ?_, by simp⟩, workers_set_zero _ _ hF.2⟩
      simp only [main_ok, List.length_set]
      omega
  case create =>
    obtain ⟨hk0, hm⟩ := main_slot _ _ _ _ _ k _ hF hk rfl
    subst hk0
    have hok := frame_main _ _ _ _ _ _ hF hm
    simp only [main_ok] at hok
    split at hr
    · simp only [Option.some.injEq] at hr
      subst hr
      exact inv_spawn c s true _ h hm rfl (by assumption) hex
    · simp only [Option.some.injEq] at hr
      subst hr
      refine inv_of_frame c _ (by exact hN) hpos (by exact hex) (by exact h.out_none hex) ?_ ?_
      · exact ids_set_same _ _ _ _ _ h.ids hk rfl rfl
      · refine ⟨⟨_, get_set_self _ 0 _ _ hk, ?_, by simp⟩, workers_set_zero _ _ hF.2⟩
        simp only [main_ok, List.length_set]
        omega
  case acquire =>
    simp only [Option.some.injEq] at hr
    subst hr
    refine inv_of_frame c _ (by exact hN) hpos (by exact hex) (by exact h.out_none hex) ?_ ?_
    · exact ids_set_acquire _ _ _ _ _ h.ids hk rfl rfl rfl
    · exact frame_internal _ _ _ _ _ _ _ _ hF hk rfl rfl
  case clock_on =>
    split at hr <;>
    · simp only [Option.some.injEq] at hr
      subst hr
      refine inv_of_frame c _ (by exact hN) hpos (by exact hex) (by exact h.out_none hex) ?_ ?_
      · exact ids_set_same _ _ _ _ _ h.ids hk rfl rfl
      · exact frame_internal _ _ _ _ _ _ _ _ hF hk rfl rfl
  case setup =>
    simp only [Option.some.injEq] at hr
    subst hr
    refine inv_of_frame c _ (by exact hN) hpos (by exact hex) (by exact h.out_none hex) ?_ ?_
    · exact ids_set_same _ _ _ _ _ h.ids hk rfl rfl
    · exact frame_internal _ _ _ _ _ _ _ _ hF hk rfl rfl
  case arrive =>
    unfold barrier at hr
    by_cases hb : s.gm.start.bar_teller + 1 = s.gm.nprocs
    · simp only [hb, if_true, Option.some.injEq] at hr
      subst hr
      have hkw : (s.threads.map wake)[k]? = some ⟨PC.arrive, pid, b, e⟩ := by
        rw [List.getElem?_map, hk]; rfl
      refine inv_of_frame c _ (by exact hN) hpos (by exact hex) (by exact h.out_none hex) ?_ ?_
      · exact ids_set_same _ _ _ _ _
          (ids_map _ _ wake h.ids (fun t => ⟨by rw [wake_pc]; split <;> simp_all [acquired],
            wake_pid t⟩)) hkw rfl rfl
      · exact frame_internal _ _ _ _ _ _ _ _ (frame_wake _ _ _ _ _ hF) hkw rfl rfl
    · simp only [hb, if_false, Bool.false_eq_true, Option.some.injEq] at hr
      subst hr
      refine inv_of_frame c _ (by exact hN) hpos (by exact hex) (by exact h.out_none hex) ?_ ?_
      · exact ids_set_same _ _ _ _ _ h.ids hk rfl rfl
      · exact frame_internal _ _ _ _ _ _ _ _ hF hk rfl rfl
  case trace =>
    simp only [Option.some.injEq] at hr
    subst hr
    refine inv_of_frame c _ (by exact hN) hpos (by exact hex) (by exact h.out_none hex) ?_ ?_
    · exact ids_set_same _ _ _ _ _ h.ids hk rfl rfl
    · exact frame_internal _ _ _ _ _ _ _ _ hF hk rfl rfl
  case clock_off =>
    obtain ⟨r1, r2, r3⟩ := record_frame c.dostats pid b (time s.clock) s.gm
    split at hr
    · rename_i hk0
      subst hk0
      have hok := frame_main _ _ _ _ _ _ hF hk
      simp only [main_ok] at hok
      simp only [Option.some.injEq] at hr
      subst hr
      refine inv_of_frame c _ (by simp only [r2]; exact hN) hpos (by exact hex) (by exact h.out_none hex) ?_ ?_
      · simp only [r1]
        exact ids_set_same _ _ _ _ _ h.ids hk rfl rfl
      · simp only [r2]
        refine ⟨⟨_, get_set_self _ 0 _ _ hk, ?_, by simp⟩, workers_set_zero _ _ hF.2⟩
        simp only [main_ok, List.length_set]
        have hl0 : 0 < s.threads.length := (List.getElem?_eq_some.mp hk).1
        refine ⟨hok.1, by omega, by omega, by omega, ?_⟩
        intro j v hj hv
        have : (s.threads.set 0 ⟨PC.join, pid, b, time s.clock⟩)[j]? = none := by
          apply List.getElem?_eq_none
          rw [List.length_set]
          omega
        rw [this] at hv
        exact absurd hv (by simp)
    · rename_i hk0
      simp only [Option.some.injEq] at hr
      subst hr
      obtain ⟨⟨m, hm, hok, hne⟩, hw⟩ := hF
      refine inv_of_frame c _ (by simp only [r2]; exact hN) hpos (by exact hex) (by exact h.out_none hex) ?_ ?_
      · simp only [r1]
        exact ids_set_same _ _ _ _ _ h.ids hk rfl rfl
      · simp only [r2]
        constructor
        · refine ⟨m, ?_, main_ok_set _ _ _ _ _ _ k _ _ hok hk (by simp) (by omega), hne⟩
          rw [get_set_other _ k 0 _ (by omega)]; exact hm
        · intro j v hj hv
          rcases get_set_cases _ k j _ v hv with ⟨_, e2⟩ | ⟨_, e2⟩
          · rw [e2]; rfl
          · exact hw j v hj e2
  case join =>
    obtain ⟨hk0, hm⟩ := main_slot _ _ _ _ _ k _ hF hk rfl
    subst hk0
    have hok := frame_main _ _ _ _ _ _ hF hm
    simp only [main_ok] at hok
    obtain ⟨o1, o2, o3, o4, o5⟩ := hok
    split at hr
    · split at hr
      · rename_i u hu
        split at hr
        · rename_i hret
          simp only [Option.some.injEq] at hr
          subst hr
          refine inv_of_frame c _ (by exact hN) hpos (by exact hex) (by exact h.out_none hex) h.ids ?_
          refine ⟨⟨_, hk, ?_, by simp⟩, hF.2⟩
          simp only [main_ok]
          refine ⟨o1, by omega, by omega, by omega, ?_⟩
          intro j v hj hv
          by_cases hjn : s.nthreads ≤ (j : Int)
          · exact o5 j v hjn hv
          · have : (s.nthreads - 1).toNat = j := by omega
            rw [this, hv] at hu
            have := Option.some.inj hu
            rw [this]; exact hret
        · exact absurd hr (by simp)
      · exact absurd hr (by simp)
    · simp only [Option.some.injEq] at hr
      subst hr
      refine inv_of_frame c _ (by exact hN) hpos (by exact hex) (by exact h.out_none hex) ?_ ?_
      · exact ids_set_same _ _ _ _ _ h.ids hk rfl rfl
      · refine ⟨⟨_, get_set_self _ 0 _ _ hk, ?_, by simp⟩, workers_set_zero _ _ hF.2⟩
        simp only [main_ok, List.length_set]
        refine ⟨o1, ?_⟩
        intro j v hj hv
        rw [get_set_other _ 0 j _ (by omega)] at hv
        exact o5 j v (by omega) hv
  case finish =>
    obtain ⟨hk0, hm⟩ := main_slot _ _ _ _ _ k _ hF hk rfl
    subst hk0
    have hok := frame_main _ _ _ _ _ _ hF hm
    simp only [main_ok] at hok
    obtain ⟨o1, o5⟩ := hok
    simp only [Option.some.injEq] at hr
    subst hr
    refine ⟨hN, hpos, ⟨_, get_set_self _ 0 _ _ hk, ?_, by simp⟩, Or.inr rfl,
      workers_set_zero _ _ hF.2, ?_, fun hh => absurd hh (by simp)⟩
    · simp only [main_ok, List.length_set]
      refine ⟨o1, ?_⟩
      intro j v hj hv
      rw [get_set_other _ 0 j _ (by omega)] at hv
      exact o5 j v hj hv
    · exact ids_set_same _ _ _ _ _ h.ids hk rfl rfl

/-- A step of a thread that is not inside `pthread_cond_wait` keeps the barrier
invariant. -/
theorem bar_run_thread (c : Cfg) (s s2 : State) (k : Nat) (t : Thread) (h : Inv c s)
    (hbar : BarOK s.threads s.gm.start.bar_teller s.gm.nprocs)
    (hex : s.exit = none) (hk : s.threads[k]? = some t) (hnw : t.pc ≠ PC.waiting)
    (hr : run_thread c s k t = some s2) :
    BarOK s2.threads s2.gm.start.bar_teller s2.gm.nprocs := by
  have hF := frame_of_inv c s h hex
  have hlen := inv_length c s h
  obtain ⟨pc, pid, b, e⟩ := t
  cases pc <;> simp only [run_thread] at hr
  case waiting => exact absurd rfl hnw
  case returned => exact absurd hr (by simp)
  case exited => exact absurd hr (by simp)
  case failed => exact absurd hr (by simp)
  case timing =>
    simp only [Option.some.injEq] at hr
    subst hr
    exact bar_before _ _ _ _ _ _ hbar hk rfl (by simp) rfl (by simp)
  case create =>
    obtain ⟨hk0, hm⟩ := main_slot _ _ _ _ _ k _ hF hk rfl
    subst hk0
    split at hr
    · simp only [Option.some.injEq] at hr
      subst hr
      exact bar_spawn c s true _ hbar hm rfl
    · simp only [Option.some.injEq] at hr
      subst hr
      exact bar_before _ _ _ _ _ _ hbar hk rfl (by simp) rfl (by simp)
  case acquire =>
    simp only [Option.some.injEq] at hr
    subst hr
    exact bar_before _ _ _ _ _ _ hbar hk rfl (by simp) rfl (by simp)
  case clock_on =>
    split at hr <;>
    · simp only [Option.some.injEq] at hr
      subst hr
      exact bar_before _ _ _ _ _ _ hbar hk rfl (by simp) rfl (by simp)
  case setup =>
    simp only [Option.some.injEq] at hr
    subst hr
    exact bar_before _ _ _ _ _ _ hbar hk rfl (by simp) rfl (by simp)
  case arrive =>
    unfold barrier at hr
    by_cases hb : s.gm.start.bar_teller + 1 = s.gm.nprocs
    · simp only [hb, if_true, Option.some.injEq] at hr
      subst hr
      exact (bar_release _ _ _ _ _ ⟨PC.trace, pid, b, e⟩ hbar hlen hb hk rfl (by simp) rfl).1
    · simp only [hb, if_false, Bool.false_eq_true, Option.some.injEq] at hr
      subst hr
      exact bar_wait _ _ _ _ _ _ hbar hb hk rfl (by simp) rfl
  case trace =>
    simp only [Option.some.injEq] at hr
    subst hr
    exact bar_after _ _ _ _ _ _ hbar hk rfl rfl
  case clock_off =>
    obtain ⟨_, r2, r3⟩ := record_frame c.dostats pid b (time s.clock) s.gm
    split at hr <;>
    · simp only [Option.some.injEq] at hr
      subst hr
      simp only [r2, r3]
      exact bar_after _ _ _ _ _ _ hbar hk rfl rfl
  case join =>
    split at hr
    · split at hr
      · split at hr
        · simp only [Option.some.injEq] at hr
          subst hr
          exact hbar
        · exact absurd hr (by simp)
      · exact absurd hr (by simp)
    · simp only [Option.some.injEq] at hr
      subst hr
      exact bar_after _ _ _ _ _ _ hbar hk rfl rfl
  case finish =>
    simp only [Option.some.injEq] at hr
    subst hr
    exact bar_after _ _ _ _ _ _ hbar hk rfl rfl

theorem inv_step (c : Cfg) (s s2 : State) (a : Action) (h : Inv c s)
    (hs : step c s a = some s2) : Inv c s2 := by
  unfold step at hs
  split at hs
  · exact absurd hs (by simp)
  · rename_i hhalt
    have hex : s.exit = none := by
      cases hx : s.exit with
      | none => rfl
      | some v => rw [hx] at hhalt; simp at hhalt
    cases a with
    | tick =>
      simp only [Option.some.injEq] at hs
      subst hs
      exact inv_tick c s h
    | create_fails =>
      simp only at hs
      split at hs
      · rename_i t ht
        split at hs
        · rename_i hc
          simp only [Option.some.injEq] at hs
          subst hs
          exact inv_spawn c s false t h ht hc.1 hc.2 hex
        · exact absurd hs (by simp)
      · exact absurd hs (by simp)
    | run k =>
      simp only at hs
      split at hs
      · rename_i t ht
        exact inv_run_thread c s s2 k t h hex ht hs
      · exact absurd hs (by simp)

theorem inv_exec (c : Cfg) (sched : List Action) : ∀ (s s2 : State), Inv c s →
    exec c s sched = some s2 → Inv c s2 := by
  induction sched with
  | nil =>
    intro s s2 h he
    simp only [exec, Option.some.injEq] at he
    subst he; exact h
  | cons a as ih =>
    intro s s2 h he
    simp only [exec] at he
    split at he
    · rename_i s1 hs1
      exact ih s1 s2 (inv_step c s s1 a h hs1) he
    · exact absurd he (by simp)

/-! ## States at the end of a run -/

theorem ids_complete (l : List Thread) (g : Int) (h : IdsOK l g)
    (hall : ∀ t ∈ l, acquired t.pc = true) :
    g = l.length ∧
    (l.map Thread.pid).Perm ((List.range l.length).map (fun n : Nat => (n : Int))) := by
  obtain ⟨h1, h2, h3⟩ := h
  have hg : g = l.length := by
    rw [h1]
    congr 1
    exact List.countP_eq_length.mpr (fun t ht => hall t ht)
  refine ⟨hg, ?_⟩
  have hnd : (l.map Thread.pid).Nodup := by
    rw [List.nodup_iff_getElem?_ne_getElem?]
    intro i j hij hj heq
    simp only [List.length_map] at hj
    simp only [List.getElem?_map] at heq
    have hi : i < l.length := by omega
    have ei : l[i]? = some l[i] := List.getElem?_eq_getElem hi
    have ej : l[j]? = some l[j] := List.getElem?_eq_getElem hj
    rw [ei, ej] at heq
    simp only [Option.map_some', Option.some.injEq] at heq
    have := h3 i j _ _ ei ej (hall _ (List.getElem_mem _)) (hall _ (List.getElem_mem _)) heq
    omega
  have hsub : l.map Thread.pid ⊆ (List.range l.length).map (fun n : Nat => (n : Int)) := by
    intro x hx
    obtain ⟨t, ht, rfl⟩ := List.mem_map.mp hx
    obtain ⟨k, hk⟩ := List.getElem?_of_mem ht
    have := h2 k t hk (hall t ht)
    apply List.mem_map.mpr
    refine ⟨t.pid.toNat, ?_, ?_⟩
    · rw [List.mem_range]; omega
    · show ((t.pid.toNat : Nat) : Int) = t.pid
      omega
  exact (hnd.subperm hsub).perm_of_length_le (by simp)

/-- At the end of a run the table holds `nprocs` threads: the workers were joined after
they returned, and `main` went through `StartRayTrace` itself. -/
theorem inv_final (c : Cfg) (s : State) (h : Inv c s) (hx : s.exit = some 0) :
    (s.threads.length : Int) = c.nprocs ∧ (∀ t ∈ s.threads, released t.pc = true) := by
  obtain ⟨m, hm, hok, hiff⟩ := h.main
  have hpc : m.pc = PC.exited := hiff.mpr hx
  rw [hpc] at hok
  simp only [main_ok] at hok
  refine ⟨by rw [← h.nprocs_eq]; exact hok.1, ?_⟩
  intro t ht
  obtain ⟨k, hk⟩ := List.getElem?_of_mem ht
  cases k with
  | zero =>
    rw [hm] at hk
    have := Option.some.inj hk
    rw [← this, hpc]; rfl
  | succ k =>
    rw [hok.2 (k + 1) t (by omega) hk]; rfl

theorem released_acquired (pc : PC) (h : released pc = true) : acquired pc = true := by
  cases pc <;> simp [released] at h <;> rfl

theorem released_arrived (pc : PC) (h : released pc = true) : arrived pc = true := by
  cases pc <;> simp [released] at h <;> rfl

/-! ## Progress and termination -/

theorem live_init (c : Cfg) (h : 1 ≤ c.nprocs) (hr : c.nprocs ≤ c.MAX_THREADS) :
    Live c (init_state c) := by
  refine ⟨inv_init c h, bar_init c h, ?_, rfl, hr, fun _ _ _ => rfl⟩
  intro t ht
  simp [init_state] at ht
  subst ht
  simp

theorem sum_wake_le (l : List Thread) :
    ((l.map wake).map (fun t => rank t.pc)).sum ≤ (l.map (fun t => rank t.pc)).sum := by
  induction l with
  | nil => simp
  | cons x xs ih =>
    simp only [List.map_cons, List.sum_cons]
    have : rank (wake x).pc ≤ rank x.pc := by
      rw [wake_pc]; split
      · rename_i hw; rw [hw]; simp [rank]
      · exact le_refl _
    omega

theorem no_failed_set (l : List Thread) (k : Nat) (a : Thread)
    (h : ∀ t ∈ l, t.pc ≠ PC.failed) (ha : a.pc ≠ PC.failed) :
    ∀ t ∈ l.set k a, t.pc ≠ PC.failed := by
  intro t ht
  rcases List.mem_or_eq_of_mem_set ht with ht | ht
  · exact h t ht
  · rw [ht]; exact ha

theorem no_failed_wake (l : List Thread) (h : ∀ t ∈ l, t.pc ≠ PC.failed) :
    ∀ t ∈ l.map wake, t.pc ≠ PC.failed := by
  intro t ht
  obtain ⟨u, hu, rfl⟩ := List.mem_map.mp ht
  rw [wake_pc]; split
  · simp
  · exact h u hu

theorem i_zero_set (l : List Thread) (k : Nat) (a : Thread) (i : Int) (ha : a.pc ≠ PC.timing)
    (h : ∀ m : Thread, l[0]? = some m → m.pc = PC.timing → i = 0) :
    ∀ m : Thread, (l.set k a)[0]? = some m → m.pc = PC.timing → i = 0 := by
  intro m hm hpc
  rcases get_set_cases l k 0 a m hm with ⟨_, e2⟩ | ⟨_, e2⟩
  · rw [e2] at hpc; exact absurd hpc ha
  · exact h m e2 hpc

theorem measure_set (s s2 : State) (k : Nat) (t a : Thread) (hk : s.threads[k]? = some t)
    (hth : s2.threads = s.threads.set k a) (hi : s2.i = s.i) (hn : s2.nthreads = s.nthreads)
    (hN : s2.gm.nprocs = s.gm.nprocs) (hr : rank a.pc < rank t.pc) :
    measure s2 < measure s := by
  have := sum_set (fun t => rank t.pc) s.threads k t a hk
  simp only [measure, hth, hi, hn, hN]
  simp only at this
  omega

theorem live_of (c : Cfg) (s s2 : State) (h : Live c s) (hinv : Inv c s2)
    (hbar : BarOK s2.threads s2.gm.start.bar_teller s2.gm.nprocs)
    (hf : ∀ t ∈ s2.threads, t.pc ≠ PC.failed) (ha : s2.aborted = false)
    (hz : ∀ m : Thread, s2.threads[0]? = some m → m.pc = PC.timing → s2.i = 0) : Live c s2 :=
  ⟨hinv, hbar, hf, ha, h.room, hz⟩

theorem live_run_thread (c : Cfg) (s s2 : State) (k : Nat) (t : Thread) (h : Live c s)
    (hex : s.exit = none) (hk : s.threads[k]? = some t) (hnw : t.pc ≠ PC.waiting)
    (hr : run_thread c s k t = some s2) : Live c s2 ∧ measure s2 < measure s := by
  have hinv2 := inv_run_thread c s s2 k t h.inv hex hk hr
  have hbar2 := bar_run_thread c s s2 k t h.inv h.bar hex hk hnw hr
  have hF := frame_of_inv c s h.inv hex
  have hnf := h.no_failed
  have hab := h.not_aborted
  have hz := h.i_zero
  have hN := h.inv.nprocs_eq
  obtain ⟨pc, pid, b, e⟩ := t
  cases pc <;> simp only [run_thread] at hr
  case waiting => exact absurd rfl hnw
  case returned => exact absurd hr (by simp)
  case exited => exact absurd hr (by simp)
  case failed => exact absurd hr (by simp)
  case timing =>
    obtain ⟨hk0, hm⟩ := main_slot _ _ _ _ _ k _ hF hk rfl
    subst hk0
    have hi0 := hz _ hk rfl
    simp only [Option.some.injEq] at hr
    subst hr
    refine ⟨live_of c s _ h hinv2 hbar2 (no_failed_set _ _ _ hnf (by simp)) hab (fun _ _ _ => rfl), ?_⟩
    exact measure_set s _ 0 _ ⟨PC.create, pid, b, e⟩ hk rfl hi0.symm rfl rfl (by simp [rank])
  case create =>
    obtain ⟨hk0, hm⟩ := main_slot _ _ _ _ _ k _ hF hk rfl
    subst hk0
    have hok := frame_main _ _ _ _ _ _ hF hm
    simp only [main_ok] at hok
    split at hr
    · rename_i hlt
      simp only [Option.some.injEq] at hr
      subst hr
      have hroom : s.nthreads < c.MAX_THREADS := by
        have := h.room
        omega
      have hl0 : 0 < s.threads.length := (List.getElem?_eq_some.mp hk).1
      have hsp : spawn c s true =
          { s with threads := s.threads ++ [new_thread true], nthreads := s.nthreads + 1,
                   i := s.i + 1 } := by
        unfold spawn; rw [if_pos hroom]
      refine ⟨live_of c s _ h hinv2 hbar2 ?_ ?_ ?_, ?_⟩
      · rw [hsp]
        intro t ht
        rcases List.mem_append.mp ht with ht | ht
        · exact hnf t ht
        · rw [List.mem_singleton.mp ht]; simp [new_thread]
      · rw [hsp]; exact hab
      · rw [hsp]
        intro m hm2 hpc
        simp only [List.getElem?_append_left hl0] at hm2
        rw [hk] at hm2
        have := Option.some.inj hm2
        rw [← this] at hpc
        exact absurd hpc (by simp)
      · rw [hsp]
        simp only [measure, List.map_append, List.sum_append, List.map_cons, List.map_nil,
          List.sum_cons, List.sum_nil, new_thread, if_true, rank]
        omega
    · simp only [Option.some.injEq] at hr
      subst hr
      refine ⟨live_of c s _ h hinv2 hbar2 (no_failed_set _ _ _ hnf (by simp)) hab
        (i_zero_set _ _ _ _ (by simp) hz), ?_⟩
      exact measure_set s _ 0 _ ⟨PC.acquire, pid, b, e⟩ hk rfl rfl rfl rfl (by simp [rank])
  case acquire =>
    simp only [Option.some.injEq] at hr
    subst hr
    refine ⟨live_of c s _ h hinv2 hbar2 (no_failed_set _ _ _ hnf (by simp)) hab
      (i_zero_set _ _ _ _ (by simp) hz), ?_⟩
    exact measure_set s _ k _ ⟨PC.clock_on, s.gm.pid, b, e⟩ hk rfl rfl rfl rfl (by simp [rank])
  case clock_on =>
    split at hr
    · simp only [Option.some.injEq] at hr
      subst hr
      refine ⟨live_of c s _ h hinv2 hbar2 (no_failed_set _ _ _ hnf (by simp)) hab
        (i_zero_set _ _ _ _ (by simp) hz), ?_⟩
      exact measure_set s _ k _ ⟨PC.setup, pid, time s.clock, e⟩ hk rfl rfl rfl rfl
        (by simp [rank])
    · simp only [Option.some.injEq] at hr
      subst hr
      refine ⟨live_of c s _ h hinv2 hbar2 (no_failed_set _ _ _ hnf (by simp)) hab
        (i_zero_set _ _ _ _ (by simp) hz), ?_⟩
      exact measure_set s _ k _ ⟨PC.setup, pid, b, e⟩ hk rfl rfl rfl rfl (by simp [rank])
  case setup =>
    simp only [Option.some.injEq] at hr
    subst hr
    refine ⟨live_of c s _ h hinv2 hbar2 (no_failed_set _ _ _ hnf (by simp)) hab
      (i_zero_set _ _ _ _ (by simp) hz), ?_⟩
    exact measure_set s _ k _ ⟨PC.arrive, pid, b, e⟩ hk rfl rfl rfl rfl (by simp [rank])
  case arrive =>
    unfold barrier at hr
    by_cases hb : s.gm.start.bar_teller + 1 = s.gm.nprocs
    · simp only [hb, if_true, Option.some.injEq] at hr
      subst hr
      have hkw : (s.threads.map wake)[k]? = some ⟨PC.arrive, pid, b, e⟩ := by
        rw [List.getElem?_map, hk]; rfl
      refine ⟨live_of c s _ h hinv2 hbar2 (no_failed_set _ _ _ (no_failed_wake _ hnf) (by simp)) hab
        ?_, ?_⟩
      · intro m hm hpc
        rcases get_set_cases _ k 0 _ m hm with ⟨_, e2⟩ | ⟨_, e2⟩
        · rw [e2] at hpc; exact absurd hpc (by simp)
        · obtain ⟨m0, f1, f2⟩ := get_map_wake _ _ _ e2
          rw [f2, wake_pc] at hpc
          split at hpc
          · exact absurd hpc (by simp)
          · exact hz m0 f1 hpc
      · have h1 := sum_set (fun t => rank t.pc) (s.threads.map wake) k _
          ⟨PC.trace, pid, b, e⟩ hkw
        have h2 := sum_wake_le s.threads
        change _ + 6 = _ + 4 at h1
        simp only [measure]
        omega
    · simp only [hb, if_false, Bool.false_eq_true, Option.some.injEq] at hr
      subst hr
      refine ⟨live_of c s _ h hinv2 hbar2 (no_failed_set _ _ _ hnf (by simp)) hab
        (i_zero_set _ _ _ _ (by simp) hz), ?_⟩
      exact measure_set s _ k _ ⟨PC.waiting, pid, b, e⟩ hk rfl rfl rfl rfl (by simp [rank])
  case trace =>
    simp only [Option.some.injEq] at hr
    subst hr
    refine ⟨live_of c s _ h hinv2 hbar2 (no_failed_set _ _ _ hnf (by simp)) hab
      (i_zero_set _ _ _ _ (by simp) hz), ?_⟩
    exact measure_set s _ k _ ⟨PC.clock_off, pid, b, e⟩ hk rfl rfl rfl rfl (by simp [rank])
  case clock_off =>
    obtain ⟨r1, r2, r3⟩ := record_frame c.dostats pid b (time s.clock) s.gm
    split at hr
    · simp only [Option.some.injEq] at hr
      subst hr
      refine ⟨live_of c s _ h hinv2 hbar2 (no_failed_set _ _ _ hnf (by simp)) hab
        (i_zero_set _ _ _ _ (by simp) hz), ?_⟩
      exact measure_set s _ k _ ⟨PC.join, pid, b, time s.clock⟩ hk rfl rfl rfl r2
        (by simp [rank])
    · simp only [Option.some.injEq] at hr
      subst hr
      refine ⟨live_of c s _ h hinv2 hbar2 (no_failed_set _ _ _ hnf (by simp)) hab
        (i_zero_set _ _ _ _ (by simp) hz), ?_⟩
      exact measure_set s _ k _ ⟨PC.returned, pid, b, time s.clock⟩ hk rfl rfl rfl r2
        (by simp [rank])
  case join =>
    obtain ⟨hk0, hm⟩ := main_slot _ _ _ _ _ k _ hF hk rfl
    subst hk0
    have hok := frame_main _ _ _ _ _ _ hF hm
    simp only [main_ok] at hok
    obtain ⟨o1, o2, o3, o4, o5⟩ := hok
    split at hr
    · split at hr
      · split at hr
        · simp only [Option.some.injEq] at hr
          subst hr
          refine ⟨live_of c s _ h hinv2 hbar2 hnf hab ?_, ?_⟩
          · intro m hm2 hpc
            rw [hk] at hm2
            have := Option.some.inj hm2
            rw [← this] at hpc
            exact absurd hpc (by simp)
          · simp only [measure]
            omega
        · exact absurd hr (by simp)
      · exact absurd hr (by simp)
    · simp only [Option.some.injEq] at hr
      subst hr
      refine ⟨live_of c s _ h hinv2 hbar2 (no_failed_set _ _ _ hnf (by simp)) hab
        (i_zero_set _ _ _ _ (by simp) hz), ?_⟩
      exact measure_set s _ 0 _ ⟨PC.finish, pid, b, e⟩ hk rfl rfl rfl rfl (by simp [rank])
  case finish =>
    simp only [Option.some.injEq] at hr
    subst hr
    refine ⟨live_of c s _ h hinv2 hbar2 (no_failed_set _ _ _ hnf (by simp)) hab
      (i_zero_set _ _ _ _ (by simp) hz), ?_⟩
    exact measure_set s _ k _ ⟨PC.exited, pid, b, e⟩ hk rfl rfl rfl rfl (by simp [rank])

theorem free_enabled (c : Cfg) (s : State) (k : Nat) (t : Thread) (h : free t.pc = true) :
    ∃ s2, run_thread c s k t = some s2 := by
  obtain ⟨pc, pid, b, e⟩ := t
  cases pc <;> simp only [free] at h <;> simp only [run_thread]
  all_goals first
    | exact ⟨_, rfl⟩
    | (split <;> exact ⟨_, rfl⟩)
    | exact absurd h (by simp)

theorem step_run (c : Cfg) (s s2 : State) (k : Nat) (t : Thread) (hab : s.aborted = false)
    (hex : s.exit = none) (hk : s.threads[k]? = some t) (hr : run_thread c s k t = some s2) :
    step c s (Action.run k) = some s2 := by
  unfold step
  rw [if_neg (by simp [hab, hex])]
  simp only [hk]
  exact hr

theorem progress (c : Cfg) (s : State) (h : Live c s) (hex : s.exit = none) :
    ∃ (k : Nat) (t : Thread) (s2 : State),
      s.threads[k]? = some t ∧ t.pc ≠ PC.waiting ∧ run_thread c s k t = some s2 := by
  by_cases hfree : ∃ (k : Nat) (t : Thread), s.threads[k]? = some t ∧ free t.pc = true
  · obtain ⟨k, t, hk, hf⟩ := hfree
    obtain ⟨s2, hs2⟩ := free_enabled c s k t hf
    refine ⟨k, t, s2, hk, ?_, hs2⟩
    intro e
    rw [e] at hf
    simp [free] at hf
  · have hnone : ∀ (k : Nat) (t : Thread), s.threads[k]? = some t → free t.pc = false := by
      intro k t hk
      cases hf : free t.pc with
      | false => rfl
      | true => exact absurd ⟨k, t, hk, hf⟩ hfree
    obtain ⟨m, hm, hok, hx⟩ := h.inv.main
    have hmf := hnone 0 m hm
    have hworker : ∀ (k : Nat) (t : Thread), 1 ≤ k → s.threads[k]? = some t →
        t.pc = PC.waiting ∨ t.pc = PC.returned := by
      intro k t hk1 hk
      have h1 := h.inv.workers k t hk1 hk
      have h2 := hnone k t hk
      have h3 := h.no_failed t (List.getElem?_mem hk)
      revert h1 h2 h3
      cases t.pc <;> simp [worker_pc, free]
    have hmpc : m.pc = PC.waiting ∨ m.pc = PC.join := by
      have hne : m.pc ≠ PC.exited := by
        intro e
        rw [hx.mp e] at hex
        exact absurd hex (by simp)
      revert hok hmf hne
      cases m.pc <;> simp [main_ok, free]
    rcases hmpc with hw | hj
    · exfalso
      rw [hw] at hok
      simp only [main_ok] at hok
      rcases h.bar with ⟨b1, b2, b3⟩ | ⟨b1, _⟩
      · have hall : ∀ t ∈ s.threads, (fun t : Thread => t.pc == PC.waiting) t = true := by
          intro t ht
          obtain ⟨k, hk⟩ := List.getElem?_of_mem ht
          cases k with
          | zero =>
            rw [hm] at hk
            have := Option.some.inj hk
            rw [← this]; simp [hw]
          | succ k =>
            rcases hworker (k + 1) t (by omega) hk with e | e
            · simp [e]
            · have := b1 t ht
              rw [e] at this
              exact absurd this (by simp [released])
        have := List.countP_eq_length.mpr hall
        omega
      · have := b1 m (List.getElem?_mem hm)
        rw [hw] at this
        exact absurd this (by simp [released])
    · rw [hj] at hok
      simp only [main_ok] at hok
      obtain ⟨o1, o2, o3, o4, o5⟩ := hok
      obtain ⟨pc, pid, b, e⟩ := m
      simp only at hj
      subst hj
      have hen : ∃ s2, run_thread c s 0 ⟨PC.join, pid, b, e⟩ = some s2 := by
        simp only [run_thread]
        by_cases ha : 0 < s.aantal
        · rw [if_pos ha]
          have hlt : (s.nthreads - 1).toNat < s.threads.length := by omega
          have hu : s.threads[(s.nthreads - 1).toNat]? = some s.threads[(s.nthreads - 1).toNat] :=
            List.getElem?_eq_getElem hlt
          have hret : (s.threads[(s.nthreads - 1).toNat]).pc = PC.returned := by
            rcases hworker _ _ (by omega) hu with e1 | e1
            · rcases h.bar with ⟨b1, _, _⟩ | ⟨b1, _⟩
              · have := b1 _ (List.getElem?_mem hm)
                exact absurd this (by simp [released])
              · have := b1 _ (List.getElem?_mem hu)
                rw [e1] at this
                exact absurd this (by simp [released])
            · exact e1
          rw [hu]
          simp only [hret, if_true]
          exact ⟨_, rfl⟩
        · rw [if_neg ha]
          exact ⟨_, rfl⟩
      obtain ⟨s2, hs2⟩ := hen
      exact ⟨0, _, s2, hm, by simp, hs2⟩

theorem completes (c : Cfg) : ∀ (n : Nat) (s : State), measure s ≤ n → Live c s →
    ∃ (sched : List Action) (s2 : State), exec c s sched = some s2 ∧ s2.exit = some 0 := by
  intro n
  induction n with
  | zero =>
    intro s hm h
    rcases h.inv.exit_ok with hex | hex
    · obtain ⟨k, t, s2, hk, hnw, hr⟩ := progress c s h hex
      have := (live_run_thread c s s2 k t h hex hk hnw hr).2
      omega
    · exact ⟨[], s, rfl, hex⟩
  | succ n ih =>
    intro s hm h
    rcases h.inv.exit_ok with hex | hex
    · obtain ⟨k, t, s2, hk, hnw, hr⟩ := progress c s h hex
      obtain ⟨hl2, hlt⟩ := live_run_thread c s s2 k t h hex hk hnw hr
      obtain ⟨sched, s3, he, hx⟩ := ih s2 (by omega) hl2
      refine ⟨Action.run k :: sched, s3, ?_, hx⟩
      simp only [exec, step_run c s s2 k t h.not_aborted hex hk hr]
      exact he
    · exact ⟨[], s, rfl, hex⟩

/-! ## Worker ids (C1) -/

/-- C1. For every worker count `N` with `1 ≤ N ≤ MAX_PROCS` and every interleaving: the
shared counter `gm->pid` never exceeds `N`, it equals the number of threads that have
acquired an id, the ids held are pairwise distinct and lie in `[0, gm->pid)`; when the
program has reached `exit(0)` the thread table holds `N` threads (main and `N-1` workers),
all of which acquired an id, `gm->pid = N`, and the ids are exactly `0, ..., N-1`.  When
the thread table has room (`MAX_PROCS ≤ __MAX_THREADS__`) such a complete run exists. -/
theorem C1_worker_ids (c : Cfg) (hlo : 1 ≤ c.nprocs) (hhi : c.nprocs ≤ c.MAX_PROCS) :
    (∀ (sched : List Action) (s : State), exec c (init_state c) sched = some s →
      s.gm.pid ≤ c.nprocs ∧
      s.gm.pid = ((s.threads.countP (fun t => acquired t.pc) : Nat) : Int) ∧
      (∀ (k : Nat) (t : Thread), s.threads[k]? = some t → acquired t.pc = true →
        0 ≤ t.pid ∧ t.pid < s.gm.pid) ∧
      (∀ (j k : Nat) (t u : Thread), s.threads[j]? = some t → s.threads[k]? = some u →
        acquired t.pc = true → acquired u.pc = true → t.pid = u.pid → j = k) ∧
      (s.exit = some 0 →
        (s.threads.length : Int) = c.nprocs ∧ (∀ t ∈ s.threads, acquired t.pc = true) ∧
        s.gm.pid = c.nprocs ∧
        (s.threads.map Thread.pid).Perm
          ((List.range c.nprocs.toNat).map (fun n : Nat => (n : Int))))) ∧
    (c.MAX_PROCS ≤ c.MAX_THREADS →
      ∃ (sched : List Action) (s : State),
        exec c (init_state c) sched = some s ∧ s.exit = some 0) := by
  constructor
  · intro sched s hrun
    have hinv := inv_exec c sched _ s (inv_init c hlo) hrun
    have hlen := inv_length c s hinv
    obtain ⟨i1, i2, i3⟩ := hinv.ids
    have hcl : s.threads.countP (fun t => acquired t.pc) ≤ s.threads.length :=
      List.countP_le_length _
    have hN := hinv.nprocs_eq
    refine ⟨by omega, i1, i2, i3, ?_⟩
    intro hx
    obtain ⟨f1, f2⟩ := inv_final c s hinv hx
    have hall : ∀ t ∈ s.threads, acquired t.pc = true :=
      fun t ht => released_acquired _ (f2 t ht)
    obtain ⟨g1, g2⟩ := ids_complete s.threads s.gm.pid hinv.ids hall
    have hl : c.nprocs.toNat = s.threads.length := by omega
    refine ⟨f1, hall, by omega, ?_⟩
    rw [hl]; exact g2
  · intro hroom
    exact completes c _ (init_state c) (le_refl _) (live_init c hlo (by omega))

theorem C1_worker_ids_witness :
    (1 : Int) ≤ (demo 2 false).nprocs ∧ (demo 2 false).nprocs ≤ (demo 2 false).MAX_PROCS ∧
    exec (demo 2 false) (init_state (demo 2 false)) sched_two
      = some (run_to (demo 2 false) sched_two) ∧
    (run_to (demo 2 false) sched_two).exit = some 0 ∧
    (run_to (demo 2 false) sched_two).gm.pid = 2 ∧
    ((run_to (demo 2 false) sched_two).threads.map Thread.pid).Perm [0, 1] ∧
    (demo 2 false).MAX_PROCS ≤ (demo 2 false).MAX_THREADS ∧
    ∃ (sched : List Action) (s : State),
      exec (demo 2 false) (init_state (demo 2 false)) sched = some s ∧ s.exit = some 0 :=
  ⟨by decide, by decide, rfl, by decide,
    (((C1_worker_ids (demo 2 false) (by decide) (by decide)).1 sched_two _ rfl).2.2.2.2
      (by decide)).2.2.1,
    (((C1_worker_ids (demo 2 false) (by decide) (by decide)).1 sched_two _ rfl).2.2.2.2
      (by decide)).2.2.2,
    by decide, (C1_worker_ids (demo 2 false) (by decide) (by decide)).2 (by decide)⟩

/-! ## The start barrier (C3) -/

/-- The property of the start barrier: when some thread has left it, every thread has
arrived at it.  It follows from the barrier invariant. -/
theorem bar_order (l : List Thread) (teller target : Int) (h : BarOK l teller target) :
    ∀ t ∈ l, ∀ u ∈ l, released t.pc = true → arrived u.pc = true := by
  intro t ht u hu hr
  rcases h with ⟨b1, _, _⟩ | ⟨b1, _⟩
  · rw [b1 t ht] at hr
    exact absurd hr (by simp)
  · exact released_arrived _ (b1 u hu)

/-- Every scheduler choice other than a return of `pthread_cond_wait` that no broadcast
caused keeps the barrier invariant. -/
theorem bar_step (c : Cfg) (s s2 : State) (a : Action) (h : Inv c s)
    (hbar : BarOK s.threads s.gm.start.bar_teller s.gm.nprocs)
    (hns : ∀ (k : Nat) (t : Thread), a = Action.run k → s.threads[k]? = some t →
      t.pc ≠ PC.waiting)
    (hs : step c s a = some s2) :
    BarOK s2.threads s2.gm.start.bar_teller s2.gm.nprocs := by
  unfold step at hs
  split at hs
  · exact absurd hs (by simp)
  · rename_i hhalt
    have hex : s.exit = none := by
      cases hx : s.exit with
      | none => rfl
      | some v => rw [hx] at hhalt; simp at hhalt
    cases a with
    | tick =>
      simp only [Option.some.injEq] at hs
      subst hs
      exact hbar
    | create_fails =>
      simp only at hs
      split at hs
      · rename_i t ht
        split at hs
        · rename_i hc
          simp only [Option.some.injEq] at hs
          subst hs
          exact bar_spawn c s false t hbar ht hc.1
        · exact absurd hs (by simp)
      · exact absurd hs (by simp)
    | run k =>
      simp only at hs
      split at hs
      · rename_i t ht
        exact bar_run_thread c s s2 k t h hbar hex ht (hns k t rfl ht) hs
      · exact absurd hs (by simp)

/-- C3 (failing input). Two processors.  The worker takes id 0, finishes its private
initialisation and arrives at the start barrier (counter 1 of 2); its `pthread_cond_wait`
returns although nobody has broadcast, which POSIX permits and which lines 222-226 do not
guard against (the wait is not in a loop that tests `bar_teller` again); the worker then
runs `RayTrace` to its end while `main` has not even taken its id.  In that state a thread
is past the barrier and another one has not arrived at it. -/
theorem C3_spurious_return :
    (exec (demo 2 false) (init_state (demo 2 false))
        (sched_two.take 7 ++ [Action.run 1, Action.run 1])).map
      (fun s => (s.threads.map Thread.pc, s.gm.start.bar_teller, s.gm.nprocs, s.released_at))
      = some ([PC.acquire, PC.clock_off], 1, 2, none) ∧
    ∃ t ∈ (run_to (demo 2 false) (sched_two.take 7 ++ [Action.run 1, Action.run 1])).threads,
      ∃ u ∈ (run_to (demo 2 false) (sched_two.take 7 ++ [Action.run 1, Action.run 1])).threads,
        released t.pc = true ∧ arrived u.pc = false := by
  decide

/-! ## Effects of a single step -/

theorem record_pst (d : Bool) (p : Int) (b e : Nat) (g : GMEM) :
    (record d p b e g).par_start_time = if p = 0 then b else g.par_start_time := by
  unfold record
  by_cases hp : p = 0
  · simp [hp]
  · by_cases hd : d = true <;> simp [hp, hd]

/-- What one step of thread `j` does to the other threads, to `par_start_time`, to the
printed report and to the thread itself. -/
theorem run_thread_effect (c : Cfg) (s s2 : State) (j : Nat) (t : Thread)
    (hj : s.threads[j]? = some t) (hr : run_thread c s j t = some s2) :
    (∀ (k : Nat) (u : Thread), k ≠ j → s.threads[k]? = some u →
      s2.threads[k]? = some u ∨ s2.threads[k]? = some (wake u)) ∧
    (s2.gm.par_start_time =
      if t.pc = PC.clock_off ∧ t.pid = 0 then t.begin_t else s.gm.par_start_time) ∧
    ((s2.out = s.out ∧ s2.exit = s.exit) ∨
      (t.pc = PC.finish ∧ s2.out = some (report c.dostats s.begin_t s.end_t s.gm) ∧
        s2.gm = s.gm)) ∧
    (acquired t.pc = true → t.pc ≠ PC.clock_on →
      ∃ t2 : Thread, s2.threads[j]? = some t2 ∧ t2.pid = t.pid ∧ t2.begin_t = t.begin_t ∧
        acquired t2.pc = true ∧ t2.pc ≠ PC.clock_on ∧
        (done t2.pc = true → (t.pc = PC.clock_off ∨ done t.pc = true))) := by
  have hset : ∀ (a : Thread) (k : Nat) (u : Thread), k ≠ j → s.threads[k]? = some u →
      (s.threads.set j a)[k]? = some u ∨ (s.threads.set j a)[k]? = some (wake u) := by
    intro a k u hk hu
    left; rw [get_set_other _ j k a hk]; exact hu
  have hself : ∀ a : Thread, (s.threads.set j a)[j]? = some a :=
    fun a => get_set_self _ j t a hj
  obtain ⟨pc, pid, b, e⟩ := t
  cases pc <;> simp only [run_thread] at hr
  case waiting =>
    simp only [Option.some.injEq] at hr
    subst hr
    exact ⟨hset _, by simp, Or.inl ⟨rfl, rfl⟩,
      fun _ _ => ⟨_, hself _, rfl, rfl, rfl, by simp, by simp [done]⟩⟩
  case returned => exact absurd hr (by simp)
  case exited => exact absurd hr (by simp)
  case failed => exact absurd hr (by simp)
  case timing =>
    simp only [Option.some.injEq] at hr
    subst hr
    exact ⟨hset _, by simp, Or.inl ⟨rfl, rfl⟩, fun h => absurd h (by simp [acquired])⟩
  case create =>
    split at hr
    · simp only [Option.some.injEq] at hr
      subst hr
      refine ⟨?_, ?_, ?_, fun h => absurd h (by simp [acquired])⟩
      · intro k u _ hu
        left
        unfold spawn
        split
        · have hlt : k < s.threads.length := (List.getElem?_eq_some.mp hu).1
          simp only [List.getElem?_append_left hlt]
          exact hu
        · exact hu
      · unfold spawn; split <;> simp
      · left; unfold spawn; split <;> exact ⟨rfl, rfl⟩
    · simp only [Option.some.injEq] at hr
      subst hr
      exact ⟨hset _, by simp, Or.inl ⟨rfl, rfl⟩, fun h => absurd h (by simp [acquired])⟩
  case acquire =>
    simp only [Option.some.injEq] at hr
    subst hr
    exact ⟨hset _, by simp, Or.inl ⟨rfl, rfl⟩, fun h => absurd h (by simp [acquired])⟩
  case clock_on =>
    split at hr <;>
    · simp only [Option.some.injEq] at hr
      subst hr
      exact ⟨hset _, by simp, Or.inl ⟨rfl, rfl⟩, fun _ h => absurd rfl h⟩
  case setup =>
    simp only [Option.some.injEq] at hr
    subst hr
    exact ⟨hset _, by simp, Or.inl ⟨rfl, rfl⟩,
      fun _ _ => ⟨_, hself _, rfl, rfl, rfl, by simp, by simp [done]⟩⟩
  case arrive =>
    split at hr
    · simp only [Option.some.injEq] at hr
      subst hr
      refine ⟨?_, by simp, Or.inl ⟨rfl, rfl⟩,
        fun _ _ => ⟨⟨PC.trace, pid, b, e⟩, ?_, rfl, rfl, rfl, by simp, by simp [done]⟩⟩
      · intro k u hk hu
        right
        rw [get_set_other _ j k _ hk, List.getElem?_map, hu]; rfl
      · exact get_set_self _ j (wake ⟨PC.arrive, pid, b, e⟩) _
          (by rw [List.getElem?_map, hj]; rfl)
    · simp only [Option.some.injEq] at hr
      subst hr
      exact ⟨hset _, by simp, Or.inl ⟨rfl, rfl⟩,
        fun _ _ => ⟨_, hself _, rfl, rfl, rfl, by simp, by simp [done]⟩⟩
  case trace =>
    simp only [Option.some.injEq] at hr
    subst hr
    exact ⟨hset _, by simp, Or.inl ⟨rfl, rfl⟩,
      fun _ _ => ⟨_, hself _, rfl, rfl, rfl, by simp, by simp [done]⟩⟩
  case clock_off =>
    have hp := record_pst c.dostats pid b (time s.clock) s.gm
    have hpst : (record c.dostats pid b (time s.clock) s.gm).par_start_time
          = if PC.clock_off = PC.clock_off ∧ pid = 0 then b else s.gm.par_start_time := by
      rw [hp]; simp
    split at hr <;>
    · simp only [Option.some.injEq] at hr
      subst hr
      exact ⟨hset _, hpst, Or.inl ⟨rfl, rfl⟩,
        fun _ _ => ⟨_, hself _, rfl, rfl, rfl, by simp, fun _ => Or.inl rfl⟩⟩
  case join =>
    split at hr
    · split at hr
      · split at hr
        · simp only [Option.some.injEq] at hr
          subst hr
          exact ⟨fun k u _ hu => Or.inl hu, by simp, Or.inl ⟨rfl, rfl⟩,
            fun _ _ => ⟨_, hj, rfl, rfl, rfl, by simp, fun _ => Or.inr rfl⟩⟩
        · exact absurd hr (by simp)
      · exact absurd hr (by simp)
    · simp only [Option.some.injEq] at hr
      subst hr
      exact ⟨hset _, by simp, Or.inl ⟨rfl, rfl⟩,
        fun _ _ => ⟨_, hself _, rfl, rfl, rfl, by simp, fun _ => Or.inr rfl⟩⟩
  case finish =>
    simp only [Option.some.injEq] at hr
    subst hr
    exact ⟨hset _, by simp, Or.inr ⟨rfl, rfl, rfl⟩,
      fun _ _ => ⟨_, hself _, rfl, rfl, rfl, by simp, fun _ => Or.inr rfl⟩⟩

/-! ## The parallel-phase start reference (C8) -/

theorem wake_done (u : Thread) : done (wake u).pc = done u.pc := by
  rw [wake_pc]; split
  · rename_i h; rw [h]; rfl
  · rfl

theorem wake_acquired (u : Thread) : acquired (wake u).pc = acquired u.pc := by
  rw [wake_pc]; split
  · rename_i h; rw [h]; rfl
  · rfl

theorem tracked_step (c : Cfg) (k b : Nat) (s s2 : State) (a : Action) (hinv : Inv c s)
    (h : Tracked k b s) (hs : step c s a = some s2) : Tracked k b s2 := by
  unfold step at hs
  split at hs
  · exact absurd hs (by simp)
  · rename_i hhalt
    have hex : s.exit = none := by
      cases hx : s.exit with
      | none => rfl
      | some v => rw [hx] at hhalt; simp at hhalt
    have hout := hinv.out_none hex
    obtain ⟨⟨u, hu, hpid, hb, hacq, hne, hdone⟩, _⟩ := h
    cases a with
    | tick =>
      simp only [Option.some.injEq] at hs
      subst hs
      exact ⟨⟨u, hu, hpid, hb, hacq, hne, hdone⟩, fun r hr => by rw [hout] at hr; simp at hr⟩
    | create_fails =>
      simp only at hs
      split at hs
      · split at hs
        · simp only [Option.some.injEq] at hs
          subst hs
          unfold spawn
          split
          · refine ⟨⟨u, ?_, hpid, hb, hacq, hne, hdone⟩,
              fun r hr => by rw [hout] at hr; simp at hr⟩
            have hlt : k < s.threads.length := (List.getElem?_eq_some.mp hu).1
            simp only [List.getElem?_append_left hlt]
            exact hu
          · exact ⟨⟨u, hu, hpid, hb, hacq, hne, hdone⟩,
              fun r hr => by rw [hout] at hr; simp at hr⟩
        · exact absurd hs (by simp)
      · exact absurd hs (by simp)
    | run j =>
      simp only at hs
      split at hs
      · rename_i t ht
        obtain ⟨e1, e2, e3, e4⟩ := run_thread_effect c s s2 j t ht hs
        have hF := frame_of_inv c s hinv hex
        by_cases hjk : j = k
        · subst hjk
          rw [hu] at ht
          have := Option.some.inj ht
          subst this
          obtain ⟨t2, g1, g2, g3, g4, g5, g6⟩ := e4 hacq hne
          have hpst : done t2.pc = true → s2.gm.par_start_time = b := by
            intro hd
            rcases g6 hd with hc | hc
            · rw [e2, if_pos ⟨hc, hpid⟩]; exact hb
            · have hnc : u.pc ≠ PC.clock_off := by
                intro e; rw [e] at hc; simp [done] at hc
              rw [e2, if_neg (fun hh => hnc hh.1)]
              exact hdone hc
          refine ⟨⟨t2, g1, by rw [g2]; exact hpid, by rw [g3]; exact hb, g4, g5, hpst⟩, ?_⟩
          intro r hr
          rcases e3 with ⟨o1, _⟩ | ⟨o1, o2, o3⟩
          · rw [o1, hout] at hr; simp at hr
          · rw [o2] at hr
            have := Option.some.inj hr
            subst this
            have hd : done u.pc = true := by rw [o1]; rfl
            have hp := hdone hd
            rw [o3]
            exact ⟨hp, by simp only [report, hp]⟩
        · have hkj : k ≠ j := fun e => hjk e.symm
          have hpst : s2.gm.par_start_time = s.gm.par_start_time := by
            rw [e2, if_neg]
            intro ⟨hc, hp0⟩
            have hta : acquired t.pc = true := by rw [hc]; rfl
            exact hjk (hinv.ids.2.2 j k t u ht hu hta hacq (by rw [hp0, hpid]))
          have hthr : ∃ u2 : Thread, s2.threads[k]? = some u2 ∧ u2.pid = 0 ∧ u2.begin_t = b ∧
              acquired u2.pc = true ∧ u2.pc ≠ PC.clock_on ∧ done u2.pc = done u.pc := by
            rcases e1 k u hkj hu with g | g
            · exact ⟨u, g, hpid, hb, hacq, hne, rfl⟩
            · refine ⟨wake u, g, by rw [wake_pid]; exact hpid, by rw [wake_begin]; exact hb,
                by rw [wake_acquired]; exact hacq, ?_, wake_done u⟩
              rw [wake_pc]; split
              · simp
              · exact hne
          obtain ⟨u2, q1, q2, q3, q4, q5, q6⟩ := hthr
          refine ⟨⟨u2, q1, q2, q3, q4, q5, fun hd => by rw [hpst]; exact hdone (by rw [← q6]; exact hd)⟩, ?_⟩
          intro r hr
          rcases e3 with ⟨o1, _⟩ | ⟨o1, o2, o3⟩
          · rw [o1, hout] at hr; simp at hr
          · rw [o2] at hr
            have := Option.some.inj hr
            subst this
            obtain ⟨hj0, hm⟩ := main_slot _ _ _ _ _ j t hF ht (by rw [o1]; rfl)
            have hok := frame_main _ _ _ _ _ _ hF hm
            rw [o1] at hok
            simp only [main_ok] at hok
            have hk1 : 1 ≤ k := by omega
            have hret := hok.2 k u hk1 hu
            have hd : done u.pc = true := by rw [hret]; rfl
            have hp := hdone hd
            rw [o3]
            exact ⟨hp, by simp only [report, hp]⟩
      · exact absurd hs (by simp)

theorem tracked_exec (c : Cfg) (k b : Nat) (sched : List Action) : ∀ (s s2 : State),
    Inv c s → Tracked k b s → exec c s sched = some s2 → Tracked k b s2 := by
  induction sched with
  | nil =>
    intro s s2 _ h he
    simp only [exec, Option.some.injEq] at he
    subst he; exact h
  | cons a as ih =>
    intro s s2 hinv h he
    simp only [exec] at he
    split at he
    · rename_i s1 hs1
      exact ih s1 s2 (inv_step c s s1 a hinv hs1) (tracked_step c k b s s1 a hinv h hs1) he
    · exact absurd he (by simp)

/-- C8 (amended). For the worker with id 0, the value stored in `gm->par_start_time` at the
end of `StartRayTrace` is the timestamp that this worker read at line 195, right after the
id acquisition and before the private initialisation and the barrier; the value printed as
`Total time without initialization` is the join timestamp minus that timestamp. -/
theorem C8_par_start_time (c : Cfg) (hlo : 1 ≤ c.nprocs) (sched1 sched2 : List Action)
    (s1 s2 : State) (k : Nat) (t : Thread)
    (h1 : exec c (init_state c) sched1 = some s1) (hk : s1.threads[k]? = some t)
    (hpc : t.pc = PC.clock_on) (hpid : t.pid = 0)
    (h2 : exec c s1 (Action.run k :: sched2) = some s2) :
    (∀ u : Thread, s2.threads[k]? = some u → done u.pc = true →
      s2.gm.par_start_time = time s1.clock) ∧
    (∀ r : Report, s2.out = some r →
      s2.gm.par_start_time = time s1.clock ∧
      r.without_init = usub r.end_t (time s1.clock)) := by
  have hinv1 := inv_exec c sched1 _ s1 (inv_init c hlo) h1
  simp only [exec] at h2
  split at h2
  swap
  · exact absurd h2 (by simp)
  rename_i s1b hstep
  have hinv1b := inv_step c s1 s1b _ hinv1 hstep
  have htr : Tracked k (time s1.clock) s1b := by
    unfold step at hstep
    split at hstep
    · exact absurd hstep (by simp)
    · rename_i hhalt
      have hex : s1.exit = none := by
        cases hx : s1.exit with
        | none => rfl
        | some v => rw [hx] at hhalt; simp at hhalt
      have hout := hinv1.out_none hex
      simp only [hk] at hstep
      obtain ⟨pc, pid, b, e⟩ := t
      simp only at hpc hpid
      subst hpc hpid
      simp only [run_thread, true_or, if_true, Option.some.injEq] at hstep
      subst hstep
      refine ⟨⟨_, get_set_self _ k _ _ hk, rfl, rfl, rfl, by simp, by simp [done]⟩, ?_⟩
      intro r hr
      rw [hout] at hr
      simp at hr
  obtain ⟨⟨u, q1, _, _, _, _, q6⟩, q7⟩ := tracked_exec c k _ sched2 s1b s2 hinv1b htr h2
  refine ⟨?_, q7⟩
  intro v hv hd
  rw [q1] at hv
  have := Option.some.inj hv
  subst this
  exact q6 hd

/-- C8 (counterexample). One worker; the clock shows 5 at line 195, 6 when the barrier
releases, 7 at the end of `RayTrace` and at the join: `par_start_time` is 5, not the
release timestamp 6, and the printed time without initialisation is 2, not 7 - 6. -/
theorem C8_counterexample :
    (exec (demo 1 false) (init_state (demo 1 false))
        (sched_one_a ++ Action.run 0 :: sched_one_b)).map
      (fun s => (s.gm.par_start_time, s.released_at, s.end_t,
        s.out.map Report.without_init, s.exit))
      = some (5, some 6, 7, some 2, some 0) ∧
    (5 : Nat) ≠ 6 ∧ (2 : Nat) ≠ usub 7 6 := by
  decide

theorem C8_par_start_time_witness :
    (1 : Int) ≤ (demo 1 false).nprocs ∧
    exec (demo 1 false) (init_state (demo 1 false)) sched_one_a
      = some (run_to (demo 1 false) sched_one_a) ∧
    (run_to (demo 1 false) sched_one_a).threads[0]? = some ⟨PC.clock_on, 0, 0, 0⟩ ∧
    exec (demo 1 false) (run_to (demo 1 false) sched_one_a) (Action.run 0 :: sched_one_b)
      = some (run_to (demo 1 false) (sched_one_a ++ Action.run 0 :: sched_one_b)) ∧
    time (run_to (demo 1 false) sched_one_a).clock = 5 ∧
    (run_to (demo 1 false) (sched_one_a ++ Action.run 0 :: sched_one_b)).out.isSome = true ∧
    ((∀ u : Thread,
        (run_to (demo 1 false) (sched_one_a ++ Action.run 0 :: sched_one_b)).threads[0]?
          = some u → done u.pc = true →
        (run_to (demo 1 false) (sched_one_a ++ Action.run 0 :: sched_one_b)).gm.par_start_time
          = time (run_to (demo 1 false) sched_one_a).clock) ∧
      (∀ r : Report,
        (run_to (demo 1 false) (sched_one_a ++ Action.run 0 :: sched_one_b)).out = some r →
        (run_to (demo 1 false) (sched_one_a ++ Action.run 0 :: sched_one_b)).gm.par_start_time
          = time (run_to (demo 1 false) sched_one_a).clock ∧
        r.without_init = usub r.end_t (time (run_to (demo 1 false) sched_one_a).clock))) :=
  ⟨by decide, rfl, by decide, rfl, by decide, by decide,
    C8_par_start_time (demo 1 false) (by decide) sched_one_a sched_one_b _ _ 0
      ⟨PC.clock_on, 0, 0, 0⟩ rfl (by decide) rfl rfl rfl⟩

/-! ## A failing `pthread_create` (C4) -/

/-- C4 (failing input). Two processors; the only `pthread_create` fails.  `main` does not
look at its return value: the program neither exits nor aborts, `main` leaves the spawn
loop, calls `StartRayTrace` inline, takes id 0 and waits at the start barrier (counter 1 of
2) with no worker at all.  If its `pthread_cond_wait` then returns without a broadcast,
`main` runs `RayTrace` and enters the join loop (`aantal = 1`, `__threads__ = 2`) over a
slot of `__tid__` that holds no thread. -/
theorem C4_failed_spawn :
    (exec (demo 2 false) (init_state (demo 2 false))
        [Action.run 0, Action.create_fails, Action.run 0, Action.run 0, Action.run 0,
         Action.run 0, Action.run 0]).map
      (fun s => (s.threads.map Thread.pc, s.aborted, s.exit, s.gm.pid,
        s.gm.start.bar_teller, s.gm.nprocs))
      = some ([PC.waiting, PC.failed], false, none, 1, 1, 2) ∧
    (exec (demo 2 false) (init_state (demo 2 false))
        [Action.run 0, Action.create_fails, Action.run 0, Action.run 0, Action.run 0,
         Action.run 0, Action.run 0, Action.run 0, Action.run 0, Action.run 0]).map
      (fun s => (s.threads.map Thread.pc, s.aborted, s.exit, s.aantal, s.nthreads))
      = some ([PC.join, PC.failed], false, none, 1, 2) :=
  ⟨by decide, by decide⟩

/-! ## The barrier round (C9) and the timing table (C10) -/

/-- C9. For every target `N ≥ 1`, starting from `bar_teller = 0`: the `k`-th arrival of a
round (`k < N`) leaves the counter at `k` and makes the caller wait; the `N`-th arrival
resets the counter to `0` and broadcasts, so the round ends with the counter at `0` again
(for `N = 1` the single arrival already does so).  In the program, a thread that arrives
when the barrier says "wait" ends blocked in `pthread_cond_wait` and nobody else moves; a
thread that arrives when the barrier says "broadcast" goes on to `RayTrace`, every thread
that was blocked is woken, and nobody is left blocked. -/
theorem C9_barrier_round (N : Nat) (hN : 1 ≤ N) :
    (∀ k : Nat, 1 ≤ k → k < N → barrier (arrivals N (k - 1)) N = ((k : Int), false)) ∧
    barrier (arrivals N (N - 1)) N = (0, true) ∧
    arrivals N N = 0 ∧
    (∀ (c : Cfg) (s : State) (j : Nat) (t : Thread), s.gm.nprocs = N →
      s.threads[j]? = some t → t.pc = PC.arrive →
      ∃ s2 : State, run_thread c s j t = some s2 ∧
        s2.gm.start.bar_teller = (barrier s.gm.start.bar_teller N).1 ∧
        ((barrier s.gm.start.bar_teller N).2 = false →
          s2.threads = s.threads.set j { t with pc := PC.waiting }) ∧
        ((barrier s.gm.start.bar_teller N).2 = true →
          s2.threads[j]? = some { t with pc := PC.trace } ∧
          (∀ (i : Nat) (u : Thread), s.threads[i]? = some u → u.pc = PC.waiting →
            s2.threads[i]? = some { u with pc := PC.trace }) ∧
          ∀ u ∈ s2.threads, u.pc ≠ PC.waiting)) := by
  have hlast : arrivals N (N - 1) = ((N - 1 : Nat) : Int) := arrivals_lt N (N - 1) (by omega)
  have hb : barrier (arrivals N (N - 1)) N = (0, true) := by
    rw [hlast]
    unfold barrier
    rw [if_pos (by omega)]
  refine ⟨?_, hb, ?_, ?_⟩
  · intro k hk1 hk
    rw [arrivals_lt N (k - 1) (by omega)]
    unfold barrier
    rw [if_neg (by omega)]
    congr 1
    omega
  · have key : ∀ M : Nat, M = N - 1 → arrivals N (M + 1) = 0 := by
      intro M hM
      simp only [arrivals]
      rw [hM, hb]
    have := key (N - 1) rfl
    rwa [Nat.sub_add_cancel hN] at this
  · intro c s j t hn hj hpc
    obtain ⟨pc, pid, b, e⟩ := t
    simp only at hpc
    subst hpc
    simp only [run_thread, hn]
    cases hbar : (barrier s.gm.start.bar_teller N).2
    · simp only [Bool.false_eq_true, if_false]
      exact ⟨_, rfl, rfl, fun _ => rfl, fun h => absurd h (by simp)⟩
    · simp only [if_true]
      refine ⟨_, rfl, rfl, fun h => absurd h (by simp), fun _ => ⟨?_, ?_, ?_⟩⟩
      · exact get_set_self _ j (wake ⟨PC.arrive, pid, b, e⟩) _
          (by rw [List.getElem?_map, hj]; rfl)
      · intro i u hi hu
        have hij : i ≠ j := by
          intro e1
          rw [e1, hj] at hi
          have := Option.some.inj hi
          rw [← this] at hu
          exact absurd hu (by simp)
        show ((s.threads.map wake).set j _)[i]? = _
        rw [get_set_other _ j i _ hij, List.getElem?_map, hi]
        simp only [Option.map_some', wake, hu, if_true]
      · intro u hu
        show u.pc ≠ PC.waiting
        rcases List.mem_or_eq_of_mem_set hu with hm | hm
        · obtain ⟨v, _, rfl⟩ := List.mem_map.mp hm
          rw [wake_pc]
          split
          · simp
          · assumption
        · rw [hm]; simp

theorem C9_barrier_round_witness :
    1 ≤ 3 ∧ barrier (arrivals 3 0) 3 = (1, false) ∧ barrier (arrivals 3 1) 3 = (2, false) ∧
    barrier (arrivals 3 2) 3 = (0, true) ∧ arrivals 3 3 = 0 ∧
    (run_to (demo 2 false) (sched_two.take 10)).gm.nprocs = ((2 : Nat) : Int) ∧
    (run_to (demo 2 false) (sched_two.take 10)).threads
      = [⟨PC.arrive, 1, 0, 0⟩, ⟨PC.waiting, 0, 0, 0⟩] ∧
    (barrier (run_to (demo 2 false) (sched_two.take 10)).gm.start.bar_teller ((2 : Nat) : Int)).2
      = true ∧
    ∃ s2 : State,
      run_thread (demo 2 false) (run_to (demo 2 false) (sched_two.take 10)) 0
          ⟨PC.arrive, 1, 0, 0⟩ = some s2 ∧
        s2.gm.start.bar_teller
          = (barrier (run_to (demo 2 false) (sched_two.take 10)).gm.start.bar_teller
              ((2 : Nat) : Int)).1 ∧
        ((barrier (run_to (demo 2 false) (sched_two.take 10)).gm.start.bar_teller
              ((2 : Nat) : Int)).2 = false →
          s2.threads = (run_to (demo 2 false) (sched_two.take 10)).threads.set 0
            { (⟨PC.arrive, 1, 0, 0⟩ : Thread) with pc := PC.waiting }) ∧
        ((barrier (run_to (demo 2 false) (sched_two.take 10)).gm.start.bar_teller
              ((2 : Nat) : Int)).2 = true →
          s2.threads[0]? = some { (⟨PC.arrive, 1, 0, 0⟩ : Thread) with pc := PC.trace } ∧
          (∀ (i : Nat) (u : Thread),
            (run_to (demo 2 false) (sched_two.take 10)).threads[i]? = some u →
            u.pc = PC.waiting → s2.threads[i]? = some { u with pc := PC.trace }) ∧
          ∀ u ∈ s2.threads, u.pc ≠ PC.waiting) :=
  ⟨by decide, (C9_barrier_round 3 (by decide)).1 1 (by decide) (by decide),
    (C9_barrier_round 3 (by decide)).1 2 (by decide) (by decide),
    (C9_barrier_round 3 (by decide)).2.1, (C9_barrier_round 3 (by decide)).2.2.1,
    by decide, by decide, by decide,
    (C9_barrier_round 2 (by decide)).2.2.2 (demo 2 false)
      (run_to (demo 2 false) (sched_two.take 10)) 0 ⟨PC.arrive, 1, 0, 0⟩ (by decide)
      (by decide) rfl⟩

/-- C10. For every id `pid`, flag `dostats` and timestamps `begin`, `end`: if `pid = 0` or
`dostats` is set, lines 236-240 leave the timing table equal to the old one with slot `pid`
replaced by `((end - begin) mod 2^32) AND 0x7FFFFFFF`, a value below `2^31` that equals
`end - begin` whenever `0 ≤ end - begin < 2^31`; otherwise the timing table and
`par_start_time` are unchanged.  Inside `StartRayTrace` only the step at lines 236-240
touches the shared memory in this way: it replaces `gm` by the result of these lines with
`end = time(0)`, and every other step of `StartRayTrace` leaves the timing table and
`par_start_time` as they are. -/
theorem C10_timing_slot (dostats : Bool) (pid : Int) (b e : Nat) (gm : GMEM) :
    ((pid = 0 ∨ dostats = true) →
      (record dostats pid b e gm).partime
        = Function.update gm.partime pid
            ((((e : Int) - (b : Int)) % 4294967296).toNat &&& 0x7FFFFFFF) ∧
      (record dostats pid b e gm).partime pid < 2147483648 ∧
      (∀ d : Nat, (e : Int) - (b : Int) = d → d < 2147483648 →
        (record dostats pid b e gm).partime pid = d) ∧
      (∀ j : Int, j ≠ pid → (record dostats pid b e gm).partime j = gm.partime j)) ∧
    ((pid ≠ 0 ∧ dostats = false) →
      (record dostats pid b e gm).partime = gm.partime ∧
      (record dostats pid b e gm).par_start_time = gm.par_start_time) ∧
    (∀ (c : Cfg) (s s2 : State) (k : Nat) (t : Thread), internal t.pc = true →
      run_thread c s k t = some s2 →
      (t.pc = PC.clock_off → s2.gm = record c.dostats t.pid t.begin_t (time s.clock) s.gm) ∧
      (t.pc ≠ PC.clock_off →
        s2.gm.partime = s.gm.partime ∧ s2.gm.par_start_time = s.gm.par_start_time)) := by
  refine ⟨?_, ?_, ?_⟩
  · intro h
    have hp : (record dostats pid b e gm).partime
        = Function.update gm.partime pid (lapse b e) := by
      unfold record
      rw [if_pos h]
      split <;> rfl
    refine ⟨hp, ?_, ?_, ?_⟩
    · rw [hp, Function.update_same]; exact lapse_lt b e
    · intro d hd hlt
      rw [hp, Function.update_same]; exact lapse_eq b e d hd hlt
    · intro j hj
      rw [hp, Function.update_noteq hj]
  · intro ⟨h1, h2⟩
    unfold record
    rw [if_neg (by simp [h1, h2])]
    exact ⟨rfl, rfl⟩
  · intro c s s2 k t hint hr
    obtain ⟨pc, pid, b, e⟩ := t
    cases pc <;> simp only [internal] at hint <;> simp only [run_thread] at hr
    case waiting =>
      simp only [Option.some.injEq] at hr; subst hr
      exact ⟨fun h => absurd h (by simp), fun _ => ⟨rfl, rfl⟩⟩
    case acquire =>
      simp only [Option.some.injEq] at hr; subst hr
      exact ⟨fun h => absurd h (by simp), fun _ => ⟨rfl, rfl⟩⟩
    case clock_on =>
      split at hr <;>
      · simp only [Option.some.injEq] at hr; subst hr
        exact ⟨fun h => absurd h (by simp), fun _ => ⟨rfl, rfl⟩⟩
    case setup =>
      simp only [Option.some.injEq] at hr; subst hr
      exact ⟨fun h => absurd h (by simp), fun _ => ⟨rfl, rfl⟩⟩
    case arrive =>
      split at hr <;>
      · simp only [Option.some.injEq] at hr; subst hr
        exact ⟨fun h => absurd h (by simp), fun _ => ⟨rfl, rfl⟩⟩
    case trace =>
      simp only [Option.some.injEq] at hr; subst hr
      exact ⟨fun h => absurd h (by simp), fun _ => ⟨rfl, rfl⟩⟩
    case clock_off =>
      split at hr <;>
      · simp only [Option.some.injEq] at hr; subst hr
        exact ⟨fun _ => rfl, fun h => absurd rfl h⟩
    all_goals exact absurd hint (by simp)

theorem C10_timing_slot_witness :
    ((0 : Int) = 0 ∨ false = true) ∧ ((5 : Int) ≠ 0 ∧ false = false) ∧
    (record false 0 5 7 gm_scenario_d).partime 0 = 2 ∧
    (record false 0 5 7 gm_scenario_d).partime 1 = 20 ∧
    (record false 5 5 7 gm_scenario_d).par_start_time = gm_scenario_d.par_start_time :=
  ⟨by decide, by decide,
    ((C10_timing_slot false 0 5 7 gm_scenario_d).1 (Or.inl rfl)).2.2.1 2 (by decide)
      (by decide),
    (((C10_timing_slot false 0 5 7 gm_scenario_d).1 (Or.inl rfl)).2.2.2 1
      (by decide)).trans (by decide),
    ((C10_timing_slot false 5 5 7 gm_scenario_d).2.1 ⟨by decide, rfl⟩).2⟩

end Raytrace
